import Mathlib

/-!
Verification of the multi-agent debate system's core components against its
natural-language specification.

The development shallowly embeds three parts of the code base:

* the task-graph scheduler `DebateWorkflow.execute_workflow`
  (`backend/server/workflow_manager.py`),
* the pipeline state machine built by `DebateManager._create_debate_graph`
  together with its stage functions (`backend/agents/debate_manager.py`,
  `backend/agents/debate_setter.py`, `backend/agents/debater_agent.py`,
  `backend/agents/scorekeeper_agent.py`), and
* the streaming session wrapper `StreamingDebateManager`
  (`backend/agents/streaming_debate_manager.py`).

External collaborators (the LLM client and the fact checker) are modelled as
oracle functions: the code passes them deterministic inputs derived from the
state, so any concrete behaviour is an instance of the oracle parameters.
Python's cooperative `asyncio.gather` pass of `execute_workflow` is modelled as
one atomic pass that evaluates every selected task against the pass-start
context snapshot, exactly as the coroutine arguments are built in the source.
Loops that the source runs without bound are given an explicit fuel parameter;
exhausting every fuel bound is the embedding of non-termination.
-/

namespace DebateClub

/-! ## Task graph scheduler (`backend/server/workflow_manager.py`) -/

/-- `TaskStatus` from `workflow_manager.py`. -/
inductive TaskStatus where
  | pending
  | in_progress
  | completed
  | failed
deriving DecidableEq, Repr

/-- The scheduler's context: the kwargs dict `self.context`, an insertion-ordered
map from key to task result. -/
abbrev WfContext := List (String × String)

/-- A registered task: `WorkflowTask.__init__`.  The unit of work `func` is
modelled as a function from the context snapshot it is invoked with to either a
result (normal return) or an error message (raised exception). -/
structure WorkflowTask where
  name : String
  func : WfContext → Except String String
  dependencies : List String

/-- The mutable bookkeeping of one `execute_workflow` run: per-task statuses and
errors, the accumulated context, the `pending_tasks` list (as task names, in
list order) and the `completed_task_names` set (as a list). -/
structure WfState where
  statuses : List (String × TaskStatus)
  errors : List (String × String)
  context : WfContext
  pending : List String
  completedNames : List String
  /-- whether the `"Deadlock detected"` log-and-break branch fired -/
  deadlockLogged : Bool
deriving DecidableEq, Repr

/-- Status lookup; every registered task has an entry, so the default is inert. -/
def statusOf (st : List (String × TaskStatus)) (n : String) : TaskStatus :=
  ((st.find? (fun p => p.1 = n)).map (fun p => p.2)).getD .pending

/-- Set one task's status. -/
def setStatus (st : List (String × TaskStatus)) (n : String) (v : TaskStatus) :
    List (String × TaskStatus) :=
  st.map (fun p => if p.1 = n then (p.1, v) else p)

/-- `task.dependencies` of the task registered under `n`. -/
def depsOf (tasks : List WorkflowTask) (n : String) : List String :=
  ((tasks.find? (fun t => t.name = n)).map (fun t => t.dependencies)).getD []

/-- `task.func` of the task registered under `n`. -/
def funcOf (tasks : List WorkflowTask) (n : String) :
    WfContext → Except String String :=
  ((tasks.find? (fun t => t.name = n)).map (fun t => t.func)).getD
    (fun _ => Except.error "unregistered")

/-- One `asyncio.gather` pass over `tasks_to_execute` plus the result-processing
loop of `execute_workflow` (lines 84-107).  Every selected task is invoked with
the pass-start context snapshot (the `**self.context` unpacking happens when the
coroutines are created); results are then folded in list order: a failure marks
the task `FAILED` and records its error, a success marks it `COMPLETED`, adds it
to `completed_task_names` and stores the result under `name + "_result"`.
Finally `pending_tasks` drops completed names and every still-`PENDING`
registered task not already listed is appended in registration order. -/
def execPass (tasks : List WorkflowTask) (st : WfState) (toExec : List String) :
    WfState :=
  let ctx0 := st.context
  let st1 := toExec.foldl
    (fun (acc : WfState) (n : String) =>
      match funcOf tasks n ctx0 with
      | Except.error e =>
          { acc with
            statuses := setStatus acc.statuses n .failed
            errors := acc.errors ++ [(n, e)] }
      | Except.ok v =>
          { acc with
            statuses := setStatus acc.statuses n .completed
            completedNames := acc.completedNames ++ [n]
            context := acc.context ++ [(n ++ "_result", v)] })
    st
  let pending1 := st1.pending.filter (fun n => ¬ n ∈ st1.completedNames)
  let pending2 := tasks.foldl
    (fun (acc : List String) (t : WorkflowTask) =>
      if ¬ t.name ∈ st1.completedNames ∧ statusOf st1.statuses t.name = .pending
          ∧ ¬ t.name ∈ acc then
        acc ++ [t.name]
      else acc)
    pending1
  { st1 with pending := pending2 }

/-- The `while pending_tasks:` loop of `execute_workflow` (lines 72-107), with
explicit fuel.  Returns the state paired with `true` when the loop exited (all
pending gone, or the deadlock log-and-break fired) and `false` when the fuel ran
out, i.e. for every bound the source loop is still running. -/
def wfLoop (tasks : List WorkflowTask) : Nat → WfState → WfState × Bool
  | fuel, st =>
    if st.pending.isEmpty then (st, true)
    else
      match fuel with
      | 0 => (st, false)
      | fuel + 1 =>
        let toExec := st.pending.filter
          (fun n => (depsOf tasks n).all (fun d => d ∈ st.completedNames))
        if toExec.isEmpty then ({ st with deadlockLogged := true }, true)
        else wfLoop tasks fuel (execPass tasks st toExec)

/-- Initial run state: context seeded with `initial_context`, `pending_tasks`
seeded with the dependency-free tasks only (line 69), all statuses `PENDING`. -/
def initWfState (tasks : List WorkflowTask) (initCtx : WfContext) : WfState :=
  { statuses := tasks.map (fun t => (t.name, TaskStatus.pending))
    errors := []
    context := initCtx
    pending := (tasks.filter (fun t => t.dependencies.isEmpty)).map
      (fun t => t.name)
    completedNames := []
    deadlockLogged := false }

/-- `DebateWorkflow.execute_workflow`, fuel-bounded. -/
def executeWorkflow (tasks : List WorkflowTask) (fuel : Nat)
    (initCtx : WfContext) : WfState × Bool :=
  wfLoop tasks fuel (initWfState tasks initCtx)

/-- A dependency-free task whose work always raises. -/
def failTaskA : WorkflowTask :=
  ⟨"A", fun _ => Except.error "boom", []⟩

/-- A dependency-free task whose work succeeds. -/
def okTaskB : WorkflowTask :=
  ⟨"B", fun _ => Except.ok "b", []⟩

/-- A task depending on both `A` and `B`. -/
def joinTaskC : WorkflowTask :=
  ⟨"C", fun _ => Except.ok "c", ["A", "B"]⟩

/-- The diamond-free three-task graph of the scheduler property in §8. -/
def tasksABC : List WorkflowTask := [failTaskA, okTaskB, joinTaskC]

/-- Two tasks forming a 2-node dependency cycle. -/
def cycleTasks : List WorkflowTask :=
  [⟨"A", fun _ => Except.ok "a", ["B"]⟩, ⟨"B", fun _ => Except.ok "b", ["A"]⟩]

/-! ## Evaluation parsing (`ScorekeeperAgent._parse_evaluation`)

The score patterns `pro[\s\w]*:?\s*(\d+)[\s\w]*points?` and its `con` twin are
hand-compiled into a backtracking matcher with Python `re.search` semantics:
leftmost starting position wins, and within a position quantifiers are greedy
with backtracking (longest first).  Text is a `List Char`; inputs are ASCII, so
the ASCII readings of `\s`, `\w`, `\d` and `str.lower` are exact. -/

/-- Python `\s` (ASCII range). -/
def isPySpace (c : Char) : Bool :=
  c = ' ' ∨ c = '\t' ∨ c = '\n' ∨ c = '\r' ∨ c = '\x0b' ∨ c = '\x0c'

/-- Python `\w` (ASCII range). -/
def isPyWord (c : Char) : Bool :=
  c.isAlpha ∨ c.isDigit ∨ c = '_'

/-- The character class `[\s\w]`. -/
def isWsOrWord (c : Char) : Bool :=
  isPySpace c ∨ isPyWord c

/-- ASCII `str.lower`. -/
def asciiLower (c : Char) : Char :=
  if 'A' ≤ c ∧ c ≤ 'Z' then Char.ofNat (c.toNat + 32) else c

/-- Greedy `cls*` against continuation `k`: consume as many class characters as
possible, backtracking one at a time when the continuation fails. -/
def starGreedy (f : Char → Bool) : List Char → (List Char → Option Nat) →
    Option Nat
  | [], k => k []
  | c :: rest, k =>
    if f c then
      match starGreedy f rest k with
      | some r => some r
      | none => k (c :: rest)
    else k (c :: rest)

/-- Greedy `c?`: try consuming `c` first, fall back to the empty match. -/
def optChar (c : Char) : List Char → (List Char → Option Nat) → Option Nat
  | [], k => k []
  | d :: rest, k =>
    if d = c then
      match k rest with
      | some r => some r
      | none => k (d :: rest)
    else k (d :: rest)

/-- Greedy continuation search for `(\d+)` given the digits consumed so far. -/
def digitsPlusAux (acc : List Char) : List Char →
    (List Char → List Char → Option Nat) → Option Nat
  | [], k => k acc []
  | d :: rest, k =>
    if d.isDigit then
      match digitsPlusAux (acc ++ [d]) rest k with
      | some r => some r
      | none => k acc (d :: rest)
    else k acc (d :: rest)

/-- Greedy `(\d+)` with capture: at least one digit, longest capture first. -/
def digitsPlus : List Char → (List Char → List Char → Option Nat) → Option Nat
  | [], _ => none
  | c :: rest, k => if c.isDigit then digitsPlusAux [c] rest k else none

/-- Match a literal, returning the remainder. -/
def dropLit : List Char → List Char → Option (List Char)
  | [], cs => some cs
  | _ :: _, [] => none
  | l :: ls, c :: cs => if c = l then dropLit ls cs else none

/-- Decimal value of a digit string, as `int()` computes it. -/
def digitsVal (ds : List Char) : Nat :=
  ds.foldl (fun a c => 10 * a + (c.toNat - '0'.toNat)) 0

/-- Attempt `key[\s\w]*:?\s*(\d+)[\s\w]*points?` anchored at the start of `cs`,
returning the captured group as a number.  The trailing `s?` always succeeds,
so the attempt ends after the literal `point`. -/
def matchScoreAt (key : List Char) (cs : List Char) : Option Nat :=
  match dropLit key cs with
  | none => none
  | some r0 =>
    starGreedy isWsOrWord r0 (fun r1 =>
      optChar ':' r1 (fun r2 =>
        starGreedy isPySpace r2 (fun r3 =>
          digitsPlus r3 (fun ds r4 =>
            starGreedy isWsOrWord r4 (fun r5 =>
              match dropLit ['p', 'o', 'i', 'n', 't'] r5 with
              | some _ => some (digitsVal ds)
              | none => none)))))

/-- `re.search` for the score pattern: try each start position left to right. -/
def searchScore (key : List Char) : List Char → Option Nat
  | [] => matchScoreAt key []
  | c :: rest =>
    match matchScoreAt key (c :: rest) with
    | some v => some v
    | none => searchScore key rest

/-- The winner rule of `_parse_evaluation` (lines 94-99). -/
def winnerRule (pro_score con_score : Nat) : String :=
  if ((pro_score : Int) - (con_score : Int)).natAbs ≤ 5 then "Tie"
  else if pro_score > con_score then "Pro"
  else "Con"

/-- `ScorekeeperAgent._parse_evaluation`: search both patterns over the lowered
text, default unmatched scores to 0, and apply the winner rule.  (`int()` on a
`\d+` group never raises, so the `except` fallback is dead code.) -/
def parse_evaluation (evaluation : String) : Nat × Nat × String :=
  let low := evaluation.data.map asciiLower
  let pro_score := (searchScore ['p', 'r', 'o'] low).getD 0
  let con_score := (searchScore ['c', 'o', 'n'] low).getD 0
  (pro_score, con_score, winnerRule pro_score con_score)

/-! ## Pipeline state (`DebateStateDict` in `debate_manager.py`)

One round's dict from the `rounds` list is a record of four optional fields
(`none` = key absent).  The full state dict always carries the remaining keys,
because `run_debate` / `_run_debate_thread` seed them all in `initial_state`. -/

/-- One entry of the `rounds` list. -/
structure RoundRec where
  pro_argument : Option String := none
  pro_fact_check : Option String := none
  con_argument : Option String := none
  con_fact_check : Option String := none
deriving DecidableEq, Repr

/-- A round dict with no keys yet (`{}`). -/
def emptyRound : RoundRec := {}

/-- The pipeline state dict. -/
structure DState where
  topic : String
  background_info : String
  current_round : Nat
  max_rounds : Nat
  introduction : String
  rounds : List RoundRec
  pro_conclusion : String
  con_conclusion : String
  evaluation : String
  winner : Option String
  pro_score : Nat
  con_score : Nat
deriving DecidableEq, Repr

/-- A stage's partial update: the dict a node returns.  `some` marks a key
present in the returned dict. -/
structure DUpdate where
  topic : Option String := none
  background_info : Option String := none
  current_round : Option Nat := none
  max_rounds : Option Nat := none
  introduction : Option String := none
  rounds : Option (List RoundRec) := none
  pro_conclusion : Option String := none
  con_conclusion : Option String := none
  evaluation : Option String := none
  winner : Option (Option String) := none
  pro_score : Option Nat := none
  con_score : Option Nat := none
deriving DecidableEq, Repr

/-- The empty update dict `{}`. -/
def emptyUpdate : DUpdate := {}

/-- LangGraph's merge of a node's returned dict into the state: every key
present in the update overwrites the channel's last value. -/
def applyUpdate (s : DState) (u : DUpdate) : DState :=
  { topic := u.topic.getD s.topic
    background_info := u.background_info.getD s.background_info
    current_round := u.current_round.getD s.current_round
    max_rounds := u.max_rounds.getD s.max_rounds
    introduction := u.introduction.getD s.introduction
    rounds := u.rounds.getD s.rounds
    pro_conclusion := u.pro_conclusion.getD s.pro_conclusion
    con_conclusion := u.con_conclusion.getD s.con_conclusion
    evaluation := u.evaluation.getD s.evaluation
    winner := u.winner.getD s.winner
    pro_score := u.pro_score.getD s.pro_score
    con_score := u.con_score.getD s.con_score }

/-- A full-state update: `set_debate` returns the whole (mutated) state dict,
so every key is present in what it hands back to the graph. -/
def toFullUpdate (s : DState) : DUpdate :=
  { topic := some s.topic
    background_info := some s.background_info
    current_round := some s.current_round
    max_rounds := some s.max_rounds
    introduction := some s.introduction
    rounds := some s.rounds
    pro_conclusion := some s.pro_conclusion
    con_conclusion := some s.con_conclusion
    evaluation := some s.evaluation
    winner := some s.winner
    pro_score := some s.pro_score
    con_score := some s.con_score }

/-- The `initial_state` dict built by `run_debate` and `_run_debate_thread`. -/
def initState (topic background : String) (num_rounds : Nat) : DState :=
  { topic := topic
    background_info := background
    current_round := 0
    max_rounds := num_rounds
    introduction := ""
    rounds := []
    pro_conclusion := ""
    con_conclusion := ""
    evaluation := ""
    winner := none
    pro_score := 0
    con_score := 0 }

/-- Debating side. -/
inductive Stance where
  | pro
  | con
deriving DecidableEq, Repr

/-- The external LLM and fact-checker collaborators, as oracles.  The session's
constructor-time constants (topic, background, agent names) are fixed inside a
run, so each call site's response is an arbitrary function of the genuinely
state-dependent prompt inputs. -/
structure Oracles where
  /-- `DebateSetter.set_debate`'s LLM response (its prompt only uses
  constructor constants). -/
  introText : String
  /-- `DebaterAgent.generate_argument` (pro): round number and formatted
  previous arguments. -/
  proArg : Nat → String → String
  /-- `DebaterAgent.generate_argument` (con). -/
  conArg : Nat → String → String
  /-- `DebaterAgent.generate_conclusion` (pro): formatted all-rounds text. -/
  proConcl : String → String
  /-- `DebaterAgent.generate_conclusion` (con). -/
  conConcl : String → String
  /-- `ScorekeeperAgent.evaluate_debate`'s LLM response: topic and the
  formatted debate content. -/
  evalText : String → String → String
  /-- `FactChecker.check_facts`. -/
  factCheck : String → String

/-- Lines built by `DebaterAgent._format_previous_arguments`, 1-indexed. -/
def prevArgLines : List RoundRec → Nat → List String
  | [], _ => []
  | rd :: rest, i =>
    ("Round " ++ toString i ++ ":") ::
      ("Pro argument: " ++ rd.pro_argument.getD "N/A") ::
      ("Con argument: " ++ rd.con_argument.getD "N/A") :: prevArgLines rest (i + 1)

/-- `DebaterAgent._format_previous_arguments`: note every line is joined with a
blank line (`"\n\n".join` over the flat line list). -/
def format_previous_arguments (rounds : List RoundRec) : String :=
  if rounds.isEmpty then
    "This is the first round, so there are no previous arguments."
  else String.intercalate "\n\n" (prevArgLines rounds 1)

/-- Lines built by `ScorekeeperAgent._format_rounds_summary`, 1-indexed; the
fact-check lines appear only when the key is present, and every round block
ends with an empty line. -/
def roundsSummaryLines : List RoundRec → Nat → List String
  | [], _ => []
  | rd :: rest, i =>
    (("Round " ++ toString i ++ ":") ::
        ("Pro argument: " ++ rd.pro_argument.getD "N/A") ::
        (match rd.pro_fact_check with
          | some v => ["Pro fact check: " ++ v]
          | none => []) ++
      ("Con argument: " ++ rd.con_argument.getD "N/A") ::
        (match rd.con_fact_check with
          | some v => ["Con fact check: " ++ v]
          | none => []) ++
      [""]) ++ roundsSummaryLines rest (i + 1)

/-- `ScorekeeperAgent._format_rounds_summary`. -/
def format_rounds_summary (rounds : List RoundRec) : String :=
  String.intercalate "\n" (roundsSummaryLines rounds 1)

/-- `ScorekeeperAgent._format_debate_content` (the f-string's literal
indentation reproduced). -/
def format_debate_content (topic : String) (rounds : List RoundRec)
    (pro_conclusion con_conclusion : String) : String :=
  "\n        Topic: " ++ topic ++
    "\n        \n        ROUNDS:\n        " ++ format_rounds_summary rounds ++
    "\n        \n        CONCLUSIONS:\n        Pro conclusion: " ++
    pro_conclusion ++ "\n        \n        Con conclusion: " ++ con_conclusion ++
    "\n        "

/-- `DebateSetter.set_debate`: writes `introduction` into the state it was
given and returns that whole state, i.e. a full update. -/
def set_debate (o : Oracles) (s : DState) : DUpdate :=
  toFullUpdate { s with introduction := o.introText }

/-- `DebaterAgent.generate_argument`.  A round dict is appended when
`current_round >= len(rounds)` (lines 82-84, and the second guard on the copy
at lines 113-114); the argument key for the acting side is then set on a copy
of `rounds[current_round]`.  `none` is the `IndexError` raised when
`current_round` still exceeds the extended list (only possible for
`current_round ≥ len(rounds) + 2`, unreachable in runs). -/
def generate_argument (st : Stance) (o : Oracles) (s : DState) :
    Option DUpdate :=
  let cr := s.current_round
  let rounds := if s.rounds.length ≤ cr then s.rounds ++ [emptyRound]
    else s.rounds
  let previous_arguments := format_previous_arguments (s.rounds.take cr)
  let text := (match st with
    | .pro => o.proArg
    | .con => o.conArg) (cr + 1) previous_arguments
  let updated := if rounds.length ≤ cr then rounds ++ [emptyRound] else rounds
  if h : cr < updated.length then
    let rd := updated.get ⟨cr, h⟩
    let rd' := match st with
      | .pro => { rd with pro_argument := some text }
      | .con => { rd with con_argument := some text }
    some { rounds := some (updated.set cr rd') }
  else none

/-- `DebateManager.fact_check_pro` (lines 144-174). -/
def fact_check_pro (o : Oracles) (s : DState) : DUpdate :=
  let cr := s.current_round
  if h : cr < s.rounds.length then
    let rd := s.rounds.get ⟨cr, h⟩
    let argument := rd.pro_argument.getD ""
    if argument = "" then emptyUpdate
    else
      let fact_check_result := o.factCheck argument
      { rounds := some
          (s.rounds.set cr { rd with pro_fact_check := some fact_check_result }) }
  else emptyUpdate

/-- `DebateManager.fact_check_con` (lines 176-209): also returns the
incremented `current_round`. -/
def fact_check_con (o : Oracles) (s : DState) : DUpdate :=
  let cr := s.current_round
  if h : cr < s.rounds.length then
    let rd := s.rounds.get ⟨cr, h⟩
    let argument := rd.con_argument.getD ""
    if argument = "" then emptyUpdate
    else
      let fact_check_result := o.factCheck argument
      { rounds := some
          (s.rounds.set cr { rd with con_fact_check := some fact_check_result })
        current_round := some (cr + 1) }
  else emptyUpdate

/-- `DebaterAgent.generate_conclusion`. -/
def generate_conclusion (st : Stance) (o : Oracles) (s : DState) : DUpdate :=
  let all_arguments := format_previous_arguments s.rounds
  match st with
  | .pro => { pro_conclusion := some (o.proConcl all_arguments) }
  | .con => { con_conclusion := some (o.conConcl all_arguments) }

/-- `ScorekeeperAgent.evaluate_debate`. -/
def evaluate_debate (o : Oracles) (s : DState) : DUpdate :=
  let formatted_debate :=
    format_debate_content s.topic s.rounds s.pro_conclusion s.con_conclusion
  let evaluation := o.evalText s.topic formatted_debate
  let parsed := parse_evaluation evaluation
  { evaluation := some evaluation
    pro_score := some parsed.1
    con_score := some parsed.2.1
    winner := some (some parsed.2.2) }

/-- The graph's nodes (`_create_debate_graph`), plus the `END` marker. -/
inductive Node where
  | set_debate
  | generate_pro_argument
  | check_pro_facts
  | generate_con_argument
  | check_con_facts
  | pro_conclusion_node
  | con_conclusion_node
  | evaluate_debate
  | finished
deriving DecidableEq, Repr

/-- `DebateManager._check_round_completion`: `true` routes to `next_round`. -/
def check_round_completion (s : DState) : Bool :=
  s.current_round < s.max_rounds

/-- One LangGraph superstep: run the node, merge its returned dict, follow the
edge (the conditional edge after `check_con_facts` reads the merged state).
`none` is a node raising; `END` is a fixpoint. -/
def pipeStep (o : Oracles) : Node × DState → Option (Node × DState)
  | (.set_debate, s) =>
      some (.generate_pro_argument, applyUpdate s (set_debate o s))
  | (.generate_pro_argument, s) =>
      (generate_argument .pro o s).map
        (fun u => (.check_pro_facts, applyUpdate s u))
  | (.check_pro_facts, s) =>
      some (.generate_con_argument, applyUpdate s (fact_check_pro o s))
  | (.generate_con_argument, s) =>
      (generate_argument .con o s).map
        (fun u => (.check_con_facts, applyUpdate s u))
  | (.check_con_facts, s) =>
      let s' := applyUpdate s (fact_check_con o s)
      some (if check_round_completion s' then .generate_pro_argument
        else .pro_conclusion_node, s')
  | (.pro_conclusion_node, s) =>
      some (.con_conclusion_node, applyUpdate s (generate_conclusion .pro o s))
  | (.con_conclusion_node, s) =>
      some (.evaluate_debate, applyUpdate s (generate_conclusion .con o s))
  | (.evaluate_debate, s) =>
      some (.finished, applyUpdate s (evaluate_debate o s))
  | (.finished, s) => some (.finished, s)

/-- The configuration reached after `n` supersteps of a `run_debate`-style run
from the entry point on `initial_state`. -/
def traceN (o : Oracles) (topic background : String) (num_rounds : Nat) :
    Nat → Option (Node × DState)
  | 0 => some (.set_debate, initState topic background num_rounds)
  | n + 1 =>
    match traceN o topic background num_rounds n with
    | some c => pipeStep o c
    | none => none

/-! ## Streaming session (`backend/agents/streaming_debate_manager.py`) -/

/-- One dict pushed to `self._update_queue`: `none` fields are absent keys
(only round events carry `round`; only the evaluation event carries
`winner`/`pro_score`/`con_score`). -/
structure Event where
  tag : String
  round : Option Nat := none
  content : String := ""
  winner : Option (Option String) := none
  proScore : Option Nat := none
  conScore : Option Nat := none
deriving DecidableEq, Repr

/-- A round-field event (`round` is surfaced 1-based). -/
def mkRoundEvent (t : String) (r : Nat) (c : String) : Event :=
  { tag := t, round := some r, content := c }

/-- One `update_type` check inside the rounds loop of `_queue_state_updates`:
emit when the key is present and `keep` accepts its value. -/
def fieldEvs (t : String) (v : Option String) (keep : String → Bool) (i : Nat) :
    List Event :=
  match v with
  | some c => if keep c then [mkRoundEvent t (i + 1) c] else []
  | none => []

/-- The new-round branch (lines 129-140): every present field is emitted. -/
def newRoundEvents (rd : RoundRec) (i : Nat) : List Event :=
  fieldEvs "pro_argument" rd.pro_argument (fun _ => true) i ++
    fieldEvs "pro_fact_check" rd.pro_fact_check (fun _ => true) i ++
    fieldEvs "con_argument" rd.con_argument (fun _ => true) i ++
    fieldEvs "con_fact_check" rd.con_fact_check (fun _ => true) i

/-- The existing-round branch (lines 141-150): a present field is emitted when
its value differs from `old_rounds[i].get(field, "")`. -/
def changedRoundEvents (old rd : RoundRec) (i : Nat) : List Event :=
  fieldEvs "pro_argument" rd.pro_argument
      (fun c => c ≠ old.pro_argument.getD "") i ++
    fieldEvs "pro_fact_check" rd.pro_fact_check
      (fun c => c ≠ old.pro_fact_check.getD "") i ++
    fieldEvs "con_argument" rd.con_argument
      (fun c => c ≠ old.con_argument.getD "") i ++
    fieldEvs "con_fact_check" rd.con_fact_check
      (fun c => c ≠ old.con_fact_check.getD "") i

/-- The `for i, round_data in enumerate(new_rounds)` loop, threading the
`_current_phase` marker: a new round first sets the phase to `round_{i+1}`;
events of an existing round leave the phase alone.  Each emitted event is
paired with the phase marker's value at the moment it was pushed. -/
def roundsTrace (oldRounds : List RoundRec) :
    List RoundRec → Nat → Option String →
      List (Event × Option String) × Option String
  | [], _, ph => ([], ph)
  | rd :: rest, i, ph =>
    if oldRounds.length ≤ i then
      let ph1 := some ("round_" ++ toString (i + 1))
      let evs := (newRoundEvents rd i).map (fun e => (e, ph1))
      let tl := roundsTrace oldRounds rest (i + 1) ph1
      (evs ++ tl.1, tl.2)
    else
      let old := oldRounds.getD i emptyRound
      let evs := (changedRoundEvents old rd i).map (fun e => (e, ph))
      let tl := roundsTrace oldRounds rest (i + 1) ph
      (evs ++ tl.1, tl.2)

/-- One `if <changed>: self._current_phase = tag; self._update_queue.put(ev)`
block: when the condition holds, the phase marker is set to `tagPhase` and the
event is pushed (paired with that phase); otherwise the incoming phase `ph`
flows through. -/
def condEmit (cond : Bool) (ev : Event) (tagPhase : String)
    (ph : Option String) : List (Event × Option String) × Option String :=
  if cond then ([(ev, some tagPhase)], some tagPhase) else ([], ph)

/-- `StreamingDebateManager._queue_state_updates`, as a pure function from the
two snapshots and the incoming phase marker to the pushed events (each paired
with the phase marker at its push) and the final phase marker. -/
def queue_state_updates (old new : DState) (ph0 : Option String) :
    List (Event × Option String) × Option String :=
  let s1 := condEmit
    (decide (old.introduction ≠ new.introduction ∧ new.introduction ≠ ""))
    { tag := "introduction", content := new.introduction } "introduction" ph0
  let s2 := roundsTrace old.rounds new.rounds 0 s1.2
  let s3 := condEmit
    (decide (new.pro_conclusion ≠ "" ∧ new.pro_conclusion ≠ old.pro_conclusion))
    { tag := "pro_conclusion", content := new.pro_conclusion } "pro_conclusion"
    s2.2
  let s4 := condEmit
    (decide (new.con_conclusion ≠ "" ∧ new.con_conclusion ≠ old.con_conclusion))
    { tag := "con_conclusion", content := new.con_conclusion } "con_conclusion"
    s3.2
  let s5 := condEmit
    (decide (new.evaluation ≠ "" ∧ new.evaluation ≠ old.evaluation))
    { tag := "evaluation", content := new.evaluation,
      winner := some new.winner, proScore := some new.pro_score,
      conScore := some new.con_score } "evaluation" s4.2
  (s1.1 ++ s2.1 ++ s3.1 ++ s4.1 ++ s5.1, s5.2)

/-- Just the events one `_queue_state_updates` call pushes, in queue order. -/
def queueEvents (old new : DState) : List Event :=
  (queue_state_updates old new none).1.map Prod.fst

/-- The session fields of `StreamingDebateManager` that one run touches. -/
structure Session where
  debate_state : Option DState := none
  complete : Bool := false
  phase : Option String := none
  error : Option String := none
  queued : List Event := []
deriving DecidableEq, Repr

/-- How the pipeline work inside `_run_with_timeout` ends: it returns a result,
the watchdog deadline fires first, or it raises. -/
inductive RunOutcome where
  | finishes (r : DState)
  | timesOut
  | raises (msg : String)

/-- `StreamingDebateManager._run_debate_thread` for one background run, and the
`_run_with_timeout` race inlined at its call site: the worker stores the
initial-state snapshot into `debate_state` and marks the phase `initializing`
(lines 55-57); the inner thread marks `executing`; then on a result the diff is
queued and `debate_state`/`_debate_complete` are written, on deadline expiry
the phase becomes `timeout` and the error `"Debate timed out"`, on an exception
the error records it; the `finally` sets the completion flag in every case. -/
def run_debate_thread (topic background : String) (num_rounds : Nat)
    (out : RunOutcome) (s : Session) : Session :=
  let tracked := initState topic background num_rounds
  let s1 := { s with debate_state := some tracked, phase := some "initializing" }
  let s2 :=
    match out with
    | .finishes r =>
      let s' := { s1 with phase := some "executing" }
      let tr := queue_state_updates tracked r s'.phase
      { s' with
        queued := s'.queued ++ tr.1.map Prod.fst
        phase := tr.2
        debate_state := some r
        complete := true }
    | .timesOut =>
      let s' := { s1 with phase := some "executing" }
      { s' with phase := some "timeout", error := some "Debate timed out" }
    | .raises msg =>
      let s' := { s1 with phase := some "executing" }
      { s' with
        error := some ("Error in debate execution: " ++ msg)
        complete := true }
  { s2 with complete := true }

/-! ## The diff contract as the specification words it

These definitions render the spec's description of the diffing step — "one
UpdateEvent per newly-populated or newly-changed field", in a fixed slot order
— rather than the source's loop, so that the source function can be compared
against them.  A text field with default `""` counts as populated when it is
nonempty; a round field (an optional dict key) counts as populated when the
key is present. -/

/-- One emittable field slot, in the specification's fixed order. -/
inductive Slot where
  | intro
  | rfield (i : Nat) (tag : String)
  | proConcl
  | conConcl
  | evalSlot
deriving DecidableEq, Repr

/-- The four per-round slots for `count` rounds starting at index `start`,
rounds ascending, fields in the fixed order. -/
def roundSlots : Nat → Nat → List Slot
  | 0, _ => []
  | count + 1, start =>
    Slot.rfield start "pro_argument" :: Slot.rfield start "pro_fact_check" ::
      Slot.rfield start "con_argument" :: Slot.rfield start "con_fact_check" ::
      roundSlots count (start + 1)

/-- All slots of the new snapshot, in the specification's fixed order. -/
def slotsFor (new : DState) : List Slot :=
  Slot.intro :: (roundSlots new.rounds.length 0 ++
    [Slot.proConcl, Slot.conConcl, Slot.evalSlot])

/-- Round-field lookup by tag name. -/
def fieldGet (rd : RoundRec) (tag : String) : Option String :=
  if tag = "pro_argument" then rd.pro_argument
  else if tag = "pro_fact_check" then rd.pro_fact_check
  else if tag = "con_argument" then rd.con_argument
  else rd.con_fact_check

/-- The claim's emission test, literally: a slot is emitted when its field is
newly populated (present now, absent before — for a round index beyond the old
snapshot the whole record was absent) or newly changed (present with a
different value than before). -/
def claimChanged (old new : DState) : Slot → Bool
  | .intro =>
    decide (new.introduction ≠ "" ∧ new.introduction ≠ old.introduction)
  | .rfield i tag =>
    let v := fieldGet (new.rounds.getD i emptyRound) tag
    let vOld := match old.rounds.get? i with
      | some rd => fieldGet rd tag
      | none => none
    v.isSome && decide (v ≠ vOld)
  | .proConcl =>
    decide (new.pro_conclusion ≠ "" ∧ new.pro_conclusion ≠ old.pro_conclusion)
  | .conConcl =>
    decide (new.con_conclusion ≠ "" ∧ new.con_conclusion ≠ old.con_conclusion)
  | .evalSlot =>
    decide (new.evaluation ≠ "" ∧ new.evaluation ≠ old.evaluation)

/-- The amended emission test: as `claimChanged`, except that in a round index
the old snapshot already had, a present field is compared against the old
value read with default `""` — so a field newly populated with the empty
string in an existing round is treated as unchanged, while any present field
of a brand-new round is emitted. -/
def amendedChanged (old new : DState) : Slot → Bool
  | .intro =>
    decide (new.introduction ≠ "" ∧ new.introduction ≠ old.introduction)
  | .rfield i tag =>
    match fieldGet (new.rounds.getD i emptyRound) tag with
    | some c =>
      if old.rounds.length ≤ i then true
      else decide (c ≠ (fieldGet (old.rounds.getD i emptyRound) tag).getD "")
    | none => false
  | .proConcl =>
    decide (new.pro_conclusion ≠ "" ∧ new.pro_conclusion ≠ old.pro_conclusion)
  | .conConcl =>
    decide (new.con_conclusion ≠ "" ∧ new.con_conclusion ≠ old.con_conclusion)
  | .evalSlot =>
    decide (new.evaluation ≠ "" ∧ new.evaluation ≠ old.evaluation)

/-- The event a slot carries: content from the new snapshot, 1-based round
index on round fields, winner and both scores on the evaluation event. -/
def eventForSlot (new : DState) : Slot → Event
  | .intro => { tag := "introduction", content := new.introduction }
  | .rfield i tag =>
    mkRoundEvent tag (i + 1) ((fieldGet (new.rounds.getD i emptyRound) tag).getD "")
  | .proConcl => { tag := "pro_conclusion", content := new.pro_conclusion }
  | .conConcl => { tag := "con_conclusion", content := new.con_conclusion }
  | .evalSlot =>
    { tag := "evaluation", content := new.evaluation,
      winner := some new.winner, proScore := some new.pro_score,
      conScore := some new.con_score }

/-- The event list the claim describes: every changed slot, in the fixed
order. -/
def claimDiffEvents (old new : DState) : List Event :=
  ((slotsFor new).filter (claimChanged old new)).map (eventForSlot new)

/-- The event list of the amended claim: every slot passing the amended
emission test, in the fixed order. -/
def amendedDiffEvents (old new : DState) : List Event :=
  ((slotsFor new).filter (amendedChanged old new)).map (eventForSlot new)

/-! ## Concrete instances used by individual theorems -/

/-- `fact_check_con` stores a result exactly when the current round exists and
its `con_argument` is present and nonempty. -/
def conFactsFires (s : DState) : Prop :=
  s.current_round < s.rounds.length ∧
    (s.rounds.getD s.current_round emptyRound).con_argument.getD "" ≠ ""

instance (s : DState) : Decidable (conFactsFires s) := by
  unfold conFactsFires
  infer_instance

/-- A concrete oracle assignment for counterexample runs. -/
def constOracles : Oracles :=
  { introText := "I"
    proArg := fun n _ => "P" ++ toString n
    conArg := fun n _ => "C" ++ toString n
    proConcl := fun _ => "PC"
    conConcl := fun _ => "CC"
    evalText := fun _ _ => "Pro: 82 points. Con: 75 points."
    factCheck := fun a => "fc:" ++ a }

/-- A fresh session object. -/
def freshSession : Session := {}

/-- Substring test (used to state that an error message carries a timeout
indication). -/
def containsSub (needle : List Char) : List Char → Bool
  | [] => (dropLit needle []).isSome
  | c :: rest => (dropLit needle (c :: rest)).isSome || containsSub needle rest

/-- A completed-pipeline snapshot with every field populated. -/
def richState : DState :=
  { initState "t" "b" 1 with
    introduction := "hi"
    rounds := [{ pro_argument := some "x", pro_fact_check := some "y",
                 con_argument := some "z", con_fact_check := some "w" }]
    pro_conclusion := "p"
    con_conclusion := "c"
    evaluation := "e"
    winner := some "Pro"
    pro_score := 9
    con_score := 1 }

/-- Old snapshot for the diff-contract counterexample: one round dict with no
keys. -/
def oldEmptyKey : DState := { initState "t" "b" 1 with rounds := [emptyRound] }

/-- New snapshot for the diff-contract counterexample: the round's
`pro_argument` key is now present, holding the empty string. -/
def newEmptyKey : DState :=
  { initState "t" "b" 1 with rounds := [{ pro_argument := some "" }] }

/-- New snapshot whose single round is new relative to `initState`: used for
the phase-marker counterexample. -/
def oneNewRound : DState :=
  { initState "t" "b" 1 with rounds := [{ pro_argument := some "x" }] }

/-- A state whose current round already carries a `pro_fact_check` value. -/
def prefilledState : DState :=
  { initState "t" "b" 1 with
    rounds := [{ pro_argument := some "a", pro_fact_check := some "old" }] }

/-- An oracle whose fact checker answers `"new"` on every argument. -/
def overwriteOracles : Oracles :=
  { constOracles with factCheck := fun _ => "new" }

/-- The steady state of the scheduler run on `tasksABC` after its first pass:
`B` completed, `A` failed but still pending, `C` pending and never eligible. -/
def QABC (st : WfState) : Prop :=
  st.pending = ["A", "C"] ∧ st.completedNames = ["B"] ∧
    st.statuses = [("A", TaskStatus.failed), ("B", TaskStatus.completed),
      ("C", TaskStatus.pending)]

/-- The deduplication key of an event. -/
def keyOf (e : Event) : String × Option Nat := (e.tag, e.round)

/-- Run invariant of the pipeline state machine, per node. -/
def PipeInv : Node × DState → Prop := fun c =>
  1 ≤ c.2.max_rounds ∧
  match c.1 with
  | .set_debate => c.2.current_round = 0 ∧ c.2.rounds = []
  | .generate_pro_argument => c.2.current_round < c.2.max_rounds ∧
      c.2.current_round ≤ c.2.rounds.length ∧
      c.2.rounds.length ≤ c.2.current_round + 1
  | .check_pro_facts => c.2.current_round < c.2.max_rounds ∧
      c.2.rounds.length = c.2.current_round + 1
  | .generate_con_argument => c.2.current_round < c.2.max_rounds ∧
      c.2.rounds.length = c.2.current_round + 1
  | .check_con_facts => c.2.current_round < c.2.max_rounds ∧
      c.2.rounds.length = c.2.current_round + 1
  | _ => c.2.current_round ≤ c.2.max_rounds

/-- Round-bookkeeping invariant of the pipeline state machine, per node.  It
makes no assumption on `max_rounds`, so it holds on every run, including runs
configured with `max_rounds = 0`. -/
def PipeInvW : Node × DState → Prop := fun c =>
  match c.1 with
  | .set_debate => c.2.current_round = 0 ∧ c.2.rounds = []
  | .generate_pro_argument => c.2.current_round ≤ c.2.rounds.length ∧
      c.2.rounds.length ≤ c.2.current_round + 1
  | .check_pro_facts => c.2.rounds.length = c.2.current_round + 1
  | .generate_con_argument => c.2.rounds.length = c.2.current_round + 1
  | .check_con_facts => c.2.rounds.length = c.2.current_round + 1
  | _ => True

/-- The state after the first superstep of a one-round run with
`constOracles`. -/
def c4wState : DState := { initState "t" "b" 1 with introduction := "I" }

/-! ## Scheduler theorems (claims C1, C2, C3) -/

lemma execPass_failA (st : WfState) (hp : st.pending = ["A"])
    (hc : st.completedNames = []) :
    (execPass [failTaskA] st ["A"]).pending = ["A"] ∧
      (execPass [failTaskA] st ["A"]).completedNames = [] := by
  simp [execPass, funcOf, failTaskA, hp, hc, statusOf, setStatus]

lemma wfLoop_failA : ∀ (fuel : Nat) (st : WfState), st.pending = ["A"] →
    st.completedNames = [] → (wfLoop [failTaskA] fuel st).2 = false := by
  intro fuel
  induction fuel with
  | zero =>
    intro st hp hc
    rw [wfLoop]
    simp [hp]
  | succ n ih =>
    intro st hp hc
    rw [wfLoop]
    simp only [hp, hc]
    norm_num [depsOf, failTaskA]
    exact ih _ (execPass_failA st hp hc).1 (execPass_failA st hp hc).2

/-- C1: the claim says `execute_workflow` terminates on every finite task
graph and in particular never re-executes a FAILED task forever.  The code
violates this: on the single dependency-free task `A` whose work always
raises, the loop never exits — for every fuel bound the run is still going
(`false` = fuel exhausted with `pending_tasks` still non-empty), because the
FAILED task is never removed from `pending_tasks`. -/
theorem c1_scheduler_nonterminating_on_failed_task :
    ∀ fuel : Nat, (executeWorkflow [failTaskA] fuel []).2 = false := by
  intro fuel
  exact wfLoop_failA fuel _ (by decide) (by decide)

/-- C2: the claim says a 2-node dependency cycle (`A` needs `B`, `B` needs
`A`) yields an explicit deadlock error naming the stuck tasks.  The code
instead returns normally: only dependency-free tasks seed `pending_tasks`, so
with both tasks in a cycle the loop body never runs — the run exits at once
with the initial context, both tasks still PENDING, no per-task error, and
even the deadlock log-and-break branch never fires. -/
theorem c2_cycle_returns_without_error :
    ∀ fuel : Nat,
      (executeWorkflow cycleTasks fuel []).2 = true ∧
      (executeWorkflow cycleTasks fuel []).1.errors = [] ∧
      (executeWorkflow cycleTasks fuel []).1.deadlockLogged = false ∧
      statusOf (executeWorkflow cycleTasks fuel []).1.statuses "A" =
        TaskStatus.pending ∧
      statusOf (executeWorkflow cycleTasks fuel []).1.statuses "B" =
        TaskStatus.pending ∧
      (executeWorkflow cycleTasks fuel []).1.context = [] := by
  intro fuel
  rw [executeWorkflow, wfLoop.eq_def]
  norm_num [initWfState, cycleTasks]
  decide

lemma execPass_ABC (st : WfState) (h : QABC st) :
    QABC (execPass tasksABC st ["A"]) := by
  obtain ⟨hp, hc, hs⟩ := h
  refine ⟨?_, ?_, ?_⟩ <;>
    simp [execPass, tasksABC, funcOf, failTaskA, okTaskB, joinTaskC,
      hp, hc, hs, statusOf, setStatus, QABC]

lemma wfLoop_ABC : ∀ (fuel : Nat) (st : WfState), QABC st →
    QABC (wfLoop tasksABC fuel st).1 := by
  intro fuel
  induction fuel with
  | zero =>
    intro st h
    rw [wfLoop]
    simp [h.1, h]
  | succ n ih =>
    intro st h
    rw [wfLoop]
    simp only [h.1, h.2.1]
    norm_num [depsOf, tasksABC, failTaskA, okTaskB, joinTaskC]
    exact ih _ (execPass_ABC st h)

lemma wfLoop_ABC_start (fuel : Nat) :
    QABC (executeWorkflow tasksABC (fuel + 1) []).1 := by
  have h1 : QABC (execPass tasksABC (initWfState tasksABC []) ["A", "B"]) := by
    constructor <;> decide
  rw [executeWorkflow, wfLoop]
  norm_num [initWfState, tasksABC, failTaskA, okTaskB, joinTaskC, depsOf]
  exact wfLoop_ABC fuel _ h1

/-- C3: over the three-task graph where `A` and `B` have no dependencies,
`C` depends on both, and `A`'s work raises: at every point of the run `C`'s
status is never COMPLETED, and after the first pass `B`'s status is COMPLETED
— `A`'s failure does not abort the independent branch `B`.  (The run itself
never terminates, see C1, so "final status" is read as "status at every
point from then on".) -/
theorem c3_failure_isolated :
    ∀ fuel : Nat,
      statusOf (executeWorkflow tasksABC fuel []).1.statuses "C" ≠
        TaskStatus.completed ∧
      statusOf (executeWorkflow tasksABC (fuel + 1) []).1.statuses "B" =
        TaskStatus.completed := by
  intro fuel
  constructor
  · cases fuel with
    | zero => decide
    | succ n =>
      have h := wfLoop_ABC_start n
      rw [h.2.2]
      decide
  · have h := wfLoop_ABC_start fuel
    rw [h.2.2]
    decide

/-! ## Evaluation-parsing theorem (claim C7) -/

/-- C7: score extraction returns the first (leftmost, greedy) integer matched
by the case-insensitive score pattern for each side, defaults an unmatched
side to 0, and declares "Tie" whenever the scores are within 5 and otherwise
the higher side; in particular "Pro: 82 points"/"Con: 75 points" parses to
82/75 with winner "Pro", "Pro: 80 points"/"Con: 77 points" gives a Tie, and
text with no match yields 0/0/"Tie". -/
theorem c7_parse_evaluation_contract :
    parse_evaluation "Pro: 82 points\nCon: 75 points" = (82, 75, "Pro") ∧
    parse_evaluation "Pro: 80 points\nCon: 77 points" = (80, 77, "Tie") ∧
    parse_evaluation "The judges were split on this one." = (0, 0, "Tie") ∧
    (∀ ev : String,
      (searchScore ['p', 'r', 'o'] (ev.data.map asciiLower) = none →
        (parse_evaluation ev).1 = 0) ∧
      (∀ v, searchScore ['p', 'r', 'o'] (ev.data.map asciiLower) = some v →
        (parse_evaluation ev).1 = v) ∧
      (searchScore ['c', 'o', 'n'] (ev.data.map asciiLower) = none →
        (parse_evaluation ev).2.1 = 0) ∧
      (∀ v, searchScore ['c', 'o', 'n'] (ev.data.map asciiLower) = some v →
        (parse_evaluation ev).2.1 = v) ∧
      (parse_evaluation ev).2.2 =
        winnerRule (parse_evaluation ev).1 (parse_evaluation ev).2.1 ∧
      ((((parse_evaluation ev).1 : Int) -
            ((parse_evaluation ev).2.1 : Int)).natAbs ≤ 5 →
        (parse_evaluation ev).2.2 = "Tie") ∧
      (5 < (((parse_evaluation ev).1 : Int) -
            ((parse_evaluation ev).2.1 : Int)).natAbs →
        (parse_evaluation ev).2.2 =
          if (parse_evaluation ev).1 > (parse_evaluation ev).2.1 then "Pro"
          else "Con")) := by
  refine ⟨by decide, by decide, by decide, ?_⟩
  intro ev
  refine ⟨?_, ?_, ?_, ?_, ?_, ?_, ?_⟩
  · intro h
    simp [parse_evaluation, h]
  · intro v h
    simp [parse_evaluation, h]
  · intro h
    simp [parse_evaluation, h]
  · intro v h
    simp [parse_evaluation, h]
  · rfl
  · intro h
    simp only [parse_evaluation, winnerRule] at h ⊢
    rw [if_pos h]
  · intro h
    simp only [parse_evaluation, winnerRule] at h ⊢
    rw [if_neg (by omega)]

/-- Witness for C7: the default- and winner-rule clauses are satisfiable at a
concrete input. -/
theorem c7_parse_evaluation_contract_witness :
    (parse_evaluation "hello").1 = 0 :=
  (c7_parse_evaluation_contract.2.2.2 "hello").1 (by decide)

/-! ## Fact-check frame theorems (claim C10) -/

/-- C10 counterexample: the claim says every value already present in the
current round's record is identical in the returned rounds list.  On a state
whose current round already carries `pro_fact_check = "old"`, `fact_check_pro`
overwrites it with the fresh fact-check result `"new"`. -/
theorem c10_overwrite_counterexample :
    (((fact_check_pro overwriteOracles prefilledState).rounds.getD []).getD 0
          emptyRound).pro_fact_check = some "new" ∧
      (prefilledState.rounds.getD 0 emptyRound).pro_fact_check = some "old" ∧
      ((some "new" : Option String) ≠ some "old") := by
  refine ⟨?_, ?_, ?_⟩ <;> decide

/-- C10 (amended): the fact-check stages return a partial update whose only
keys are `rounds` (plus `current_round` for the con side); the returned rounds
list has the same length as the input, agrees with the input at every index
other than the current round, and replaces the current round's record by a
copy in which only the fact-check field is (re)assigned — a new key whenever
it was absent, an overwrite otherwise; when the current round is out of range
or the argument is absent or empty, the update is empty.  (Mutation freedom is
expressed by the functional embedding: the input state is untouched.) -/
theorem c10_fact_check_frame_amended (o : Oracles) (s : DState) :
    (s.rounds.length ≤ s.current_round →
      fact_check_pro o s = emptyUpdate ∧ fact_check_con o s = emptyUpdate) ∧
    (∀ h : s.current_round < s.rounds.length,
      ((s.rounds.get ⟨s.current_round, h⟩).pro_argument.getD "" = "" →
        fact_check_pro o s = emptyUpdate) ∧
      (∀ a, (s.rounds.get ⟨s.current_round, h⟩).pro_argument = some a →
        a ≠ "" →
        fact_check_pro o s =
          { rounds := some (s.rounds.set s.current_round
              { s.rounds.get ⟨s.current_round, h⟩ with
                pro_fact_check := some (o.factCheck a) }) }) ∧
      ((s.rounds.get ⟨s.current_round, h⟩).con_argument.getD "" = "" →
        fact_check_con o s = emptyUpdate) ∧
      (∀ a, (s.rounds.get ⟨s.current_round, h⟩).con_argument = some a →
        a ≠ "" →
        fact_check_con o s =
          { rounds := some (s.rounds.set s.current_round
              { s.rounds.get ⟨s.current_round, h⟩ with
                con_fact_check := some (o.factCheck a) })
            current_round := some (s.current_round + 1) })) ∧
    (∀ rds, (fact_check_pro o s).rounds = some rds →
      rds.length = s.rounds.length ∧
      ∀ j, j ≠ s.current_round → rds[j]? = s.rounds[j]?) ∧
    (∀ rds, (fact_check_con o s).rounds = some rds →
      rds.length = s.rounds.length ∧
      ∀ j, j ≠ s.current_round → rds[j]? = s.rounds[j]?) := by
  refine ⟨?_, ?_, ?_, ?_⟩
  · intro h
    constructor <;>
      · simp only [fact_check_pro, fact_check_con]
        rw [dif_neg (by omega)]
  · intro h
    refine ⟨?_, ?_, ?_, ?_⟩
    · intro ha
      simp only [fact_check_pro]
      rw [dif_pos h, if_pos ha]
    · intro a ha hne
      have ha2 : s.rounds[s.current_round].pro_argument = some a := ha
      simp only [fact_check_pro]
      rw [dif_pos h]
      rw [if_neg (by simp [ha2, hne])]
      simp [ha2]
    · intro ha
      simp only [fact_check_con]
      rw [dif_pos h, if_pos ha]
    · intro a ha hne
      have ha2 : s.rounds[s.current_round].con_argument = some a := ha
      simp only [fact_check_con]
      rw [dif_pos h]
      rw [if_neg (by simp [ha2, hne])]
      simp [ha2]
  · intro rds hr
    simp only [fact_check_pro] at hr
    by_cases h : s.current_round < s.rounds.length
    · rw [dif_pos h] at hr
      by_cases ha : (s.rounds.get ⟨s.current_round, h⟩).pro_argument.getD "" = ""
      · rw [if_pos ha] at hr
        exact absurd hr (by simp [emptyUpdate])
      · rw [if_neg ha] at hr
        simp only at hr
        obtain rfl : rds = s.rounds.set s.current_round _ := by
          injection hr.symm
        refine ⟨by simp, ?_⟩
        intro j hj
        exact List.getElem?_set_ne (by omega)
    · rw [dif_neg h] at hr
      exact absurd hr (by simp [emptyUpdate])
  · intro rds hr
    simp only [fact_check_con] at hr
    by_cases h : s.current_round < s.rounds.length
    · rw [dif_pos h] at hr
      by_cases ha : (s.rounds.get ⟨s.current_round, h⟩).con_argument.getD "" = ""
      · rw [if_pos ha] at hr
        exact absurd hr (by simp [emptyUpdate])
      · rw [if_neg ha] at hr
        simp only at hr
        obtain rfl : rds = s.rounds.set s.current_round _ := by
          injection hr.symm
        refine ⟨by simp, ?_⟩
        intro j hj
        exact List.getElem?_set_ne (by omega)
    · rw [dif_neg h] at hr
      exact absurd hr (by simp [emptyUpdate])

/-- Witness for C10: the in-range, argument-present clause is satisfiable on a
concrete state and oracle. -/
theorem c10_fact_check_frame_amended_witness :
    fact_check_pro constOracles richState =
      { rounds := some (richState.rounds.set richState.current_round
          { richState.rounds.get ⟨richState.current_round, by decide⟩ with
            pro_fact_check := some (constOracles.factCheck "x") }) } :=
  ((c10_fact_check_frame_amended constOracles richState).2.1 (by decide)).2.1
    "x" (by decide) (by decide)

/-! ## Timeout theorems (claim C8) -/

/-- C8 counterexample: the claim says the session's `debate_state` is left
unset by a timed-out run.  In the code `_run_debate_thread` stores the
initial-state snapshot into `debate_state` before racing the work (lines
55-57), so after a timeout on a fresh session `debate_state` is set (to that
snapshot), not `None`. -/
theorem c8_timeout_snapshot_counterexample :
    (run_debate_thread "t" "b" 1 RunOutcome.timesOut freshSession).debate_state ≠
        none ∧
      (run_debate_thread "t" "b" 1 RunOutcome.timesOut
          freshSession).debate_state ≠ freshSession.debate_state ∧
      (run_debate_thread "t" "b" 1 RunOutcome.timesOut freshSession).phase =
        some "timeout" := by
  refine ⟨?_, ?_, ?_⟩ <;> decide

/-- C8 (amended): a run whose pipeline work misses the deadline leaves the
session with the completion flag set, phase `"timeout"`, the error
`"Debate timed out"` (which contains the timeout indication `"timed out"`),
no events queued by that run, and `debate_state` holding the run's
initial-state snapshot — the pipeline result is never stored. -/
theorem c8_timeout_status_amended (topic background : String) (m : Nat)
    (s : Session) :
    run_debate_thread topic background m RunOutcome.timesOut s =
      { debate_state := some (initState topic background m)
        complete := true
        phase := some "timeout"
        error := some "Debate timed out"
        queued := s.queued } ∧
    containsSub "timed out".data "Debate timed out".data = true := by
  constructor
  · rfl
  · decide

/-! ## Diff-step lemmas shared by the streaming claims -/

lemma fieldEvs_mem {t : String} {v : Option String} {keep : String → Bool}
    {i : Nat} {e : Event} (h : e ∈ fieldEvs t v keep i) :
    e.tag = t ∧ e.round = some (i + 1) := by
  cases v with
  | none => simp [fieldEvs] at h
  | some c =>
    simp only [fieldEvs] at h
    by_cases hk : keep c
    · rw [if_pos hk] at h
      simp at h
      subst h
      exact ⟨rfl, rfl⟩
    · rw [if_neg hk] at h
      simp at h

lemma newRoundEvents_mem {rd : RoundRec} {i : Nat} {e : Event}
    (h : e ∈ newRoundEvents rd i) : e.round = some (i + 1) := by
  simp only [newRoundEvents, List.mem_append] at h
  rcases h with ((h | h) | h) | h <;> exact (fieldEvs_mem h).2

lemma changedRoundEvents_mem {old rd : RoundRec} {i : Nat} {e : Event}
    (h : e ∈ changedRoundEvents old rd i) : e.round = some (i + 1) := by
  simp only [changedRoundEvents, List.mem_append] at h
  rcases h with ((h | h) | h) | h <;> exact (fieldEvs_mem h).2

/-- Every event of the rounds loop carries a 1-based round index above the
start index, and the phase at its push is `round_r` for new rounds while
events of existing rounds inherit the incoming phase unchanged. -/
lemma roundsTrace_mem :
    ∀ (newR oldR : List RoundRec) (i : Nat) (ph : Option String) (e : Event)
      (p : Option String), (e, p) ∈ (roundsTrace oldR newR i ph).1 →
      ∃ r, e.round = some r ∧ i < r ∧
        (oldR.length < r → p = some ("round_" ++ toString r)) ∧
        (r ≤ oldR.length → p = ph) := by
  intro newR
  induction newR with
  | nil =>
    intro oldR i ph e p h
    simp [roundsTrace] at h
  | cons rd rest ih =>
    intro oldR i ph e p h
    rw [roundsTrace] at h
    by_cases hn : oldR.length ≤ i
    · rw [if_pos hn] at h
      simp only [List.mem_append, List.mem_map] at h
      rcases h with ⟨e', he', heq⟩ | h2
      · obtain ⟨rfl, rfl⟩ : e' = e ∧
            (some ("round_" ++ toString (i + 1)) : Option String) = p := by
          exact ⟨congrArg Prod.fst heq, congrArg Prod.snd heq⟩
        refine ⟨i + 1, newRoundEvents_mem he', Nat.lt_succ_self i, ?_, ?_⟩
        · intro _
          rfl
        · intro hle
          omega
      · obtain ⟨r, hr, hir, hbig, hsmall⟩ := ih oldR (i + 1)
          (some ("round_" ++ toString (i + 1))) e p h2
        refine ⟨r, hr, by omega, hbig, ?_⟩
        intro hle
        omega
    · rw [if_neg hn] at h
      simp only [List.mem_append, List.mem_map] at h
      rcases h with ⟨e', he', heq⟩ | h2
      · obtain ⟨rfl, rfl⟩ : e' = e ∧ ph = p := by
          exact ⟨congrArg Prod.fst heq, congrArg Prod.snd heq⟩
        refine ⟨i + 1, changedRoundEvents_mem he', Nat.lt_succ_self i, ?_, ?_⟩
        · intro hbig
          omega
        · intro _
          rfl
      · exact (ih oldR (i + 1) ph e p h2).imp (fun r hr =>
          ⟨hr.1, by omega, hr.2.2.1, hr.2.2.2⟩)

lemma four_fieldEvs_nodup (i : Nat) (v1 v2 v3 v4 : Option String)
    (k1 k2 k3 k4 : String → Bool) :
    ((fieldEvs "pro_argument" v1 k1 i ++ fieldEvs "pro_fact_check" v2 k2 i ++
        fieldEvs "con_argument" v3 k3 i ++
        fieldEvs "con_fact_check" v4 k4 i).map keyOf).Nodup := by
  cases v1 <;> cases v2 <;> cases v3 <;> cases v4 <;>
    simp only [fieldEvs] <;> (try split_ifs) <;>
    simp [keyOf, mkRoundEvent, List.Nodup]

lemma newRoundEvents_nodup (rd : RoundRec) (i : Nat) :
    ((newRoundEvents rd i).map keyOf).Nodup :=
  four_fieldEvs_nodup i _ _ _ _ _ _ _ _

lemma changedRoundEvents_nodup (old rd : RoundRec) (i : Nat) :
    ((changedRoundEvents old rd i).map keyOf).Nodup :=
  four_fieldEvs_nodup i _ _ _ _ _ _ _ _

lemma roundsTrace_key_round :
    ∀ (newR oldR : List RoundRec) (i : Nat) (ph : Option String)
      (x : String × Option Nat),
      x ∈ ((roundsTrace oldR newR i ph).1.map Prod.fst).map keyOf →
      ∃ r, x.2 = some r ∧ i < r := by
  intro newR oldR i ph x hx
  simp only [List.map_map, List.mem_map, Function.comp] at hx
  obtain ⟨ep, hep, rfl⟩ := hx
  obtain ⟨r, hr, hir, -, -⟩ :=
    roundsTrace_mem newR oldR i ph ep.1 ep.2 (by simpa using hep)
  exact ⟨r, hr, hir⟩

lemma roundsTrace_nodup :
    ∀ (newR oldR : List RoundRec) (i : Nat) (ph : Option String),
      (((roundsTrace oldR newR i ph).1.map Prod.fst).map keyOf).Nodup := by
  intro newR
  induction newR with
  | nil =>
    intro oldR i ph
    simp [roundsTrace]
  | cons rd rest ih =>
    intro oldR i ph
    have main : ∀ (evs : List Event) (ph1 ph2 : Option String),
        (∀ e ∈ evs, e.round = some (i + 1)) →
        (evs.map keyOf).Nodup →
        ((((evs.map (fun e => (e, ph1)) ++
              (roundsTrace oldR rest (i + 1) ph2).1).map Prod.fst).map
            keyOf).Nodup) := by
      intro evs ph1 ph2 hround hnd
      simp only [List.map_append, List.map_map]
      rw [List.nodup_append]
      refine ⟨by exact hnd, ?_, ?_⟩
      · simpa [List.map_map] using ih oldR (i + 1) ph2
      · intro x hx hx2
        obtain ⟨r2, hr2, hir2⟩ :=
          roundsTrace_key_round rest oldR (i + 1) ph2 x
            (by simpa [List.map_map] using hx2)
        simp only [List.mem_map, Function.comp] at hx
        obtain ⟨e, he, rfl⟩ := hx
        have hrd := hround e he
        simp only [keyOf, hrd, Option.some.injEq] at hr2
        omega
    rw [roundsTrace]
    by_cases hn : oldR.length ≤ i
    · rw [if_pos hn]
      exact main _ _ _ (fun e he => newRoundEvents_mem he)
        (newRoundEvents_nodup rd i)
    · rw [if_neg hn]
      exact main _ _ _ (fun e he => changedRoundEvents_mem he)
        (changedRoundEvents_nodup _ rd i)

lemma condEmit_mem {c : Bool} {ev : Event} {t : String} {ph : Option String}
    {e : Event} {p : Option String} (h : (e, p) ∈ (condEmit c ev t ph).1) :
    e = ev ∧ p = some t := by
  cases c with
  | false => simp [condEmit] at h
  | true =>
    simp only [condEmit, if_true, List.mem_singleton] at h
    exact ⟨congrArg Prod.fst h, congrArg Prod.snd h⟩

lemma condEmit_snd (c : Bool) (ev : Event) (t : String) (ph : Option String) :
    (condEmit c ev t ph).2 = if c then some t else ph := by
  cases c <;> simp [condEmit]

lemma condEmit_keys (c : Bool) (ev : Event) (t : String) (ph : Option String) :
    (((condEmit c ev t ph).1.map Prod.fst).map keyOf) =
      if c then [keyOf ev] else [] := by
  cases c <;> simp [condEmit]

lemma key_nodup_assemble (l1 l2 l3 l4 l5 : List (String × Option Nat))
    (h1 : ∀ x ∈ l1, x = ("introduction", none))
    (h2nodup : l2.Nodup) (h2 : ∀ x ∈ l2, ∃ r, x.2 = some r)
    (h3 : ∀ x ∈ l3, x = ("pro_conclusion", none))
    (h4 : ∀ x ∈ l4, x = ("con_conclusion", none))
    (h5 : ∀ x ∈ l5, x = ("evaluation", none))
    (h1len : l1.length ≤ 1) (h3len : l3.length ≤ 1) (h4len : l4.length ≤ 1)
    (h5len : l5.length ≤ 1) :
    (l1 ++ l2 ++ l3 ++ l4 ++ l5).Nodup := by
  have short_nodup : ∀ l : List (String × Option Nat), l.length ≤ 1 →
      l.Nodup := by
    intro l hl
    match l, hl with
    | [], _ => exact List.nodup_nil
    | [x], _ => exact List.nodup_singleton x
  rw [List.nodup_append]
  refine ⟨?_, short_nodup l5 h5len, ?_⟩
  · rw [List.nodup_append]
    refine ⟨?_, short_nodup l4 h4len, ?_⟩
    · rw [List.nodup_append]
      refine ⟨?_, short_nodup l3 h3len, ?_⟩
      · rw [List.nodup_append]
        refine ⟨short_nodup l1 h1len, h2nodup, ?_⟩
        · intro x hx hx2
          obtain ⟨r, hr⟩ := h2 x hx2
          rw [h1 x hx] at hr
          simp at hr
      · intro x hx hx3
        rw [h3 x hx3] at hx
        rcases List.mem_append.mp hx with hx | hx
        · exact absurd (h1 _ hx) (by simp)
        · obtain ⟨r, hr⟩ := h2 _ hx
          simp at hr
    · intro x hx hx4
      rw [h4 x hx4] at hx
      rcases List.mem_append.mp hx with hx | hx
      · rcases List.mem_append.mp hx with hx | hx
        · exact absurd (h1 _ hx) (by simp)
        · obtain ⟨r, hr⟩ := h2 _ hx
          simp at hr
      · exact absurd (h3 _ hx) (by simp)
  · intro x hx hx5
    rw [h5 x hx5] at hx
    rcases List.mem_append.mp hx with hx | hx
    · rcases List.mem_append.mp hx with hx | hx
      · rcases List.mem_append.mp hx with hx | hx
        · exact absurd (h1 _ hx) (by simp)
        · obtain ⟨r, hr⟩ := h2 _ hx
          simp at hr
      · exact absurd (h3 _ hx) (by simp)
    · exact absurd (h4 _ hx) (by simp)

lemma if_keys_mem {c : Bool} {k : String × Option Nat}
    {x : String × Option Nat} (h : x ∈ if c then [k] else []) : x = k := by
  cases c <;> simp at h
  exact h

/-! ## Deduplication theorems (claim C5) -/

/-- C5 counterexample: the claim says no two events over the lifetime of one
session — including repeated `start_debate_async` calls — share a (tag, round)
pair.  Two completed runs on the same session each diff the fresh
initial-state snapshot against the result, so every pair is pushed twice. -/
theorem c5_duplicate_pairs_counterexample :
    ¬ (((run_debate_thread "t" "b" 1 (RunOutcome.finishes richState)
          (run_debate_thread "t" "b" 1 (RunOutcome.finishes richState)
            freshSession)).queued.map keyOf).Nodup) := by
  decide

/-- C5 (amended): within one diffing call (one run's emission), no two pushed
events share the same (tag, round) pair. -/
theorem c5_single_run_dedup_amended (old new : DState) (ph0 : Option String) :
    (((queue_state_updates old new ph0).1.map Prod.fst).map keyOf).Nodup := by
  simp only [queue_state_updates, List.map_append]
  apply key_nodup_assemble
  · intro x hx
    rw [condEmit_keys] at hx
    exact if_keys_mem hx
  · simpa [List.map_map] using
      roundsTrace_nodup new.rounds old.rounds 0 _
  · intro x hx
    obtain ⟨r, hr, -⟩ := roundsTrace_key_round new.rounds old.rounds 0 _ x
      (by simpa [List.map_map] using hx)
    exact ⟨r, hr⟩
  · intro x hx
    rw [condEmit_keys] at hx
    exact if_keys_mem hx
  · intro x hx
    rw [condEmit_keys] at hx
    exact if_keys_mem hx
  · intro x hx
    rw [condEmit_keys] at hx
    exact if_keys_mem hx
  · rw [condEmit_keys]
    split <;> simp
  · rw [condEmit_keys]
    split <;> simp
  · rw [condEmit_keys]
    split <;> simp
  · rw [condEmit_keys]
    split <;> simp

/-! ## Phase-marker theorems (claim C9) -/

/-- C9 counterexample: the claim says that after every emitted event the
current-phase marker equals that event's tag.  For a `pro_argument` event of a
newly appeared round the marker is `"round_1"`, not `"pro_argument"`. -/
theorem c9_phase_tag_counterexample :
    ¬ (∀ (old new : DState) (ph : Option String) (ep : Event × Option String),
        ep ∈ (queue_state_updates old new ph).1 → ep.2 = some ep.1.tag) := by
  intro h
  have h1 := h (initState "t" "b" 1) oneNewRound none
    (mkRoundEvent "pro_argument" 1 "x", some "round_1") (by decide)
  exact absurd h1 (by decide)

/-- C9 (amended): after an event with no round index (introduction,
conclusions, evaluation) the phase marker equals the event's tag; after an
event of round `r` that is new relative to the old snapshot the marker equals
`"round_r"`; events of rounds already present leave the marker unchanged (it
still holds the value the introduction check left behind). -/
theorem c9_phase_marker_amended (old new : DState) (ph0 : Option String)
    (e : Event) (p : Option String)
    (hmem : (e, p) ∈ (queue_state_updates old new ph0).1) :
    (e.round = none → p = some e.tag) ∧
    (∀ r, e.round = some r → old.rounds.length < r →
      p = some ("round_" ++ toString r)) ∧
    (∀ r, e.round = some r → r ≤ old.rounds.length →
      p = if old.introduction ≠ new.introduction ∧ new.introduction ≠ ""
        then some "introduction" else ph0) := by
  simp only [queue_state_updates, List.mem_append] at hmem
  have scalar : ∀ (ev : Event) (t : String),
      ev.round = none → ev.tag = t → e = ev → p = some t →
      (e.round = none → p = some e.tag) ∧
      (∀ r, e.round = some r → old.rounds.length < r →
        p = some ("round_" ++ toString r)) ∧
      (∀ r, e.round = some r → r ≤ old.rounds.length →
        p = if old.introduction ≠ new.introduction ∧ new.introduction ≠ ""
          then some "introduction" else ph0) := by
    intro ev t hevr hevt he hp
    refine ⟨fun _ => by rw [hp, he, hevt], ?_, ?_⟩ <;>
      · intro r hr
        rw [he, hevr] at hr
        exact absurd hr (by simp)
  rcases hmem with (((h1 | h2) | h3) | h4) | h5
  · obtain ⟨he, hp⟩ := condEmit_mem h1
    exact scalar _ "introduction" rfl rfl he hp
  · obtain ⟨r', hr', -, hbig, hsmall⟩ :=
      roundsTrace_mem new.rounds old.rounds 0 _ e p h2
    refine ⟨?_, ?_, ?_⟩
    · intro h0
      rw [h0] at hr'
      exact absurd hr' (by simp)
    · intro r hr hlen
      rw [hr] at hr'
      obtain rfl : r' = r := by simpa using hr'.symm
      exact hbig hlen
    · intro r hr hlen
      rw [hr] at hr'
      obtain rfl : r' = r := by simpa using hr'.symm
      rw [hsmall hlen, condEmit_snd]
      by_cases hc : old.introduction ≠ new.introduction ∧ new.introduction ≠ ""
      · rw [if_pos (by simpa using hc), if_pos hc]
      · rw [if_neg (by simpa using hc), if_neg hc]
  · obtain ⟨he, hp⟩ := condEmit_mem h3
    exact scalar _ "pro_conclusion" rfl rfl he hp
  · obtain ⟨he, hp⟩ := condEmit_mem h4
    exact scalar _ "con_conclusion" rfl rfl he hp
  · obtain ⟨he, hp⟩ := condEmit_mem h5
    exact scalar _ "evaluation" rfl rfl he hp

/-- Witness for C9: the new-round clause is satisfiable on a concrete
emission. -/
theorem c9_phase_marker_amended_witness :
    (some "round_1" : Option String) = some ("round_" ++ toString 1) :=
  (c9_phase_marker_amended (initState "t" "b" 1) oneNewRound none
    (mkRoundEvent "pro_argument" 1 "x") (some "round_1") (by decide)).2.1 1
    rfl (by decide)

/-! ## Diff-contract theorems (claim C6) -/

lemma fieldEvs_eq_new (old new : DState) (t : String) (k : Nat)
    (hn : old.rounds.length ≤ k) :
    fieldEvs t (fieldGet (new.rounds.getD k emptyRound) t) (fun _ => true) k =
      if amendedChanged old new (.rfield k t) then
        [eventForSlot new (.rfield k t)] else [] := by
  simp only [amendedChanged, eventForSlot]
  cases hv : fieldGet (new.rounds.getD k emptyRound) t with
  | none => simp [fieldEvs]
  | some c => simp [fieldEvs, hn, hv]

lemma fieldEvs_eq_existing (old new : DState) (t : String) (k : Nat)
    (hn : ¬ old.rounds.length ≤ k) :
    fieldEvs t (fieldGet (new.rounds.getD k emptyRound) t)
        (fun c => c ≠ (fieldGet (old.rounds.getD k emptyRound) t).getD "") k =
      if amendedChanged old new (.rfield k t) then
        [eventForSlot new (.rfield k t)] else [] := by
  simp only [amendedChanged, eventForSlot]
  cases hv : fieldGet (new.rounds.getD k emptyRound) t with
  | none => simp [fieldEvs]
  | some c =>
    simp only [fieldEvs, hv, if_neg hn, Option.getD_some]

lemma map_fst_pair (l : List Event) (c : Option String) :
    (l.map (fun e => (e, c))).map Prod.fst = l := by
  induction l with
  | nil => rfl
  | cons a l ih => simp only [List.map_cons, ih]

lemma newRoundEvents_slots (old new : DState) (rd : RoundRec) (k : Nat)
    (hn : old.rounds.length ≤ k) (hget : new.rounds.getD k emptyRound = rd) :
    newRoundEvents rd k =
      (([Slot.rfield k "pro_argument", Slot.rfield k "pro_fact_check",
          Slot.rfield k "con_argument", Slot.rfield k "con_fact_check"].filter
            (amendedChanged old new)).map (eventForSlot new)) := by
  have h1 := fieldEvs_eq_new old new "pro_argument" k hn
  have h2 := fieldEvs_eq_new old new "pro_fact_check" k hn
  have h3 := fieldEvs_eq_new old new "con_argument" k hn
  have h4 := fieldEvs_eq_new old new "con_fact_check" k hn
  simp only [fieldGet, String.reduceEq, reduceIte] at h1 h2 h3 h4
  rw [hget] at h1 h2 h3 h4
  rw [newRoundEvents, h1, h2, h3, h4]
  simp only [List.filter_cons, List.filter_nil]
  split <;> split <;> split <;> split <;> simp

lemma changedRoundEvents_slots (old new : DState) (rd : RoundRec) (k : Nat)
    (hn : ¬ old.rounds.length ≤ k) (hget : new.rounds.getD k emptyRound = rd) :
    changedRoundEvents (old.rounds.getD k emptyRound) rd k =
      (([Slot.rfield k "pro_argument", Slot.rfield k "pro_fact_check",
          Slot.rfield k "con_argument", Slot.rfield k "con_fact_check"].filter
            (amendedChanged old new)).map (eventForSlot new)) := by
  have h1 := fieldEvs_eq_existing old new "pro_argument" k hn
  have h2 := fieldEvs_eq_existing old new "pro_fact_check" k hn
  have h3 := fieldEvs_eq_existing old new "con_argument" k hn
  have h4 := fieldEvs_eq_existing old new "con_fact_check" k hn
  simp only [fieldGet, String.reduceEq, reduceIte] at h1 h2 h3 h4
  rw [hget] at h1 h2 h3 h4
  rw [changedRoundEvents, h1, h2, h3, h4]
  simp only [List.filter_cons, List.filter_nil]
  split <;> split <;> split <;> split <;> simp

lemma rounds_events_eq (old new : DState) :
    ∀ (l : List RoundRec) (k : Nat) (ph : Option String),
      l = new.rounds.drop k →
      (roundsTrace old.rounds l k ph).1.map Prod.fst =
        ((roundSlots l.length k).filter (amendedChanged old new)).map
          (eventForSlot new) := by
  intro l
  induction l with
  | nil =>
    intro k ph hl
    simp [roundsTrace, roundSlots]
  | cons rd rest ih =>
    intro k ph hl
    have h0 : new.rounds[k]? = some rd := by
      have h1 := List.getElem?_drop new.rounds k 0
      rw [← hl] at h1
      simpa using h1.symm
    have hget : new.rounds.getD k emptyRound = rd := by
      simp [List.getD_eq_getElem?_getD, h0]
    have hdrop : rest = new.rounds.drop (k + 1) := by
      have h1 : new.rounds.drop (k + 1) = (new.rounds.drop k).drop 1 := by
        rw [List.drop_drop]
      rw [h1, ← hl]
      rfl
    have hslots : roundSlots (rd :: rest).length k =
        [Slot.rfield k "pro_argument", Slot.rfield k "pro_fact_check",
          Slot.rfield k "con_argument", Slot.rfield k "con_fact_check"] ++
          roundSlots rest.length (k + 1) := rfl
    rw [hslots, List.filter_append, List.map_append, roundsTrace]
    by_cases hn : old.rounds.length ≤ k
    · rw [if_pos hn]
      rw [List.map_append, map_fst_pair]
      congr 1
      · exact newRoundEvents_slots old new rd k hn hget
      · exact ih (k + 1) (some ("round_" ++ toString (k + 1))) hdrop
    · rw [if_neg hn]
      rw [List.map_append, map_fst_pair]
      congr 1
      · exact changedRoundEvents_slots old new rd k hn hget
      · exact ih (k + 1) ph hdrop

lemma condEmit_fst (c : Bool) (ev : Event) (t : String) (ph : Option String) :
    (condEmit c ev t ph).1.map Prod.fst = if c then [ev] else [] := by
  cases c <;> simp [condEmit]

/-- C6 counterexample: the claim says one event is emitted per newly-populated
field.  On an old snapshot whose round dict has no keys and a new snapshot
where the round's `pro_argument` key is newly present holding `""`, the code
emits nothing (the value equals the absent-read default `""`), while the
claim's emission rule produces one `pro_argument` event. -/
theorem c6_diff_contract_counterexample :
    queueEvents oldEmptyKey newEmptyKey ≠
      claimDiffEvents oldEmptyKey newEmptyKey := by
  decide

/-- C6 (amended): the diffing step emits one event per changed slot in the
fixed claimed order — introduction, then per ascending round index the four
round fields, then both conclusions, then the evaluation event carrying
winner and scores — where, in a round the old snapshot already had, a present
field counts as changed only when its value differs from the old value read
with default `""` (so a field newly populated with the empty string is not
emitted), while every present field of a brand-new round is emitted. -/
theorem c6_diff_contract_amended (old new : DState) :
    queueEvents old new = amendedDiffEvents old new := by
  have hslots : slotsFor new =
      [Slot.intro] ++ roundSlots new.rounds.length 0 ++
        [Slot.proConcl, Slot.conConcl, Slot.evalSlot] := by
    simp [slotsFor]
  rw [queueEvents, amendedDiffEvents, hslots, queue_state_updates]
  simp only [List.map_append, List.filter_append, condEmit_fst]
  rw [rounds_events_eq old new new.rounds 0 _ rfl]
  simp only [List.filter_cons, List.filter_nil]
  have hintro : (decide (old.introduction ≠ new.introduction ∧
      new.introduction ≠ "")) = amendedChanged old new Slot.intro := by
    simp only [amendedChanged]
    rw [decide_eq_decide]
    constructor
    · rintro ⟨ha, hb⟩
      exact ⟨hb, fun hh => ha hh.symm⟩
    · rintro ⟨ha, hb⟩
      exact ⟨fun hh => hb hh.symm, ha⟩
  rw [hintro]
  simp only [amendedChanged]
  split <;> split <;> split <;> split <;> simp [eventForSlot]

/-! ## Pipeline round-counter theorems (claim C4) -/

lemma set_debate_apply (o : Oracles) (s : DState) :
    applyUpdate s (set_debate o s) = { s with introduction := o.introText } :=
  rfl

lemma apply_emptyUpdate (s : DState) : applyUpdate s emptyUpdate = s := rfl

lemma generate_argument_shape (st : Stance) (o : Oracles) (s : DState)
    (hl : s.current_round ≤ s.rounds.length)
    (hu : s.rounds.length ≤ s.current_round + 1) :
    ∃ rds : List RoundRec,
      generate_argument st o s = some { rounds := some rds } ∧
      rds.length = s.current_round + 1 := by
  simp only [generate_argument]
  by_cases hc : s.rounds.length ≤ s.current_round
  · rw [if_pos hc]
    rw [if_neg (by simp; omega)]
    rw [dif_pos (by simp; omega)]
    exact ⟨_, rfl, by simp; omega⟩
  · rw [if_neg hc]
    rw [if_neg hc]
    rw [dif_pos (by omega)]
    exact ⟨_, rfl, by simp; omega⟩

lemma fact_check_pro_keys (o : Oracles) (s : DState) :
    (fact_check_pro o s).current_round = none ∧
    (fact_check_pro o s).max_rounds = none ∧
    ((fact_check_pro o s).rounds = none ∨
      ∃ rds, (fact_check_pro o s).rounds = some rds ∧
        rds.length = s.rounds.length) := by
  unfold fact_check_pro
  by_cases h : s.current_round < s.rounds.length
  · rw [dif_pos h]
    by_cases ha : (s.rounds.get ⟨s.current_round, h⟩).pro_argument.getD "" = ""
    · rw [if_pos ha]
      exact ⟨rfl, rfl, Or.inl rfl⟩
    · rw [if_neg ha]
      exact ⟨rfl, rfl, Or.inr ⟨_, rfl, by simp⟩⟩
  · rw [dif_neg h]
    exact ⟨rfl, rfl, Or.inl rfl⟩

lemma fact_check_con_fires (o : Oracles) (s : DState)
    (h : conFactsFires s) :
    ∃ rds, fact_check_con o s =
        { rounds := some rds, current_round := some (s.current_round + 1) } ∧
      rds.length = s.rounds.length := by
  obtain ⟨h1, h2⟩ := h
  unfold fact_check_con
  rw [dif_pos h1]
  have harg : (s.rounds.get ⟨s.current_round, h1⟩).con_argument.getD "" ≠ "" := by
    have hg : s.rounds.getD s.current_round emptyRound =
        s.rounds.get ⟨s.current_round, h1⟩ := by
      rw [List.getD_eq_getElem _ _ h1]
      rfl
    rw [hg] at h2
    exact h2
  rw [if_neg harg]
  exact ⟨_, rfl, by simp⟩

lemma fact_check_con_no_fire (o : Oracles) (s : DState)
    (h : ¬ conFactsFires s) : fact_check_con o s = emptyUpdate := by
  unfold conFactsFires at h
  push_neg at h
  unfold fact_check_con
  by_cases h1 : s.current_round < s.rounds.length
  · rw [dif_pos h1]
    have h2 := h h1
    have heq : (s.rounds.get ⟨s.current_round, h1⟩).con_argument.getD "" = "" := by
      have hg : s.rounds.getD s.current_round emptyRound =
          s.rounds.get ⟨s.current_round, h1⟩ := by
        rw [List.getD_eq_getElem _ _ h1]
        rfl
      rw [hg] at h2
      exact h2
    rw [if_pos heq]
  · rw [dif_neg h1]

lemma generate_conclusion_keys (st : Stance) (o : Oracles) (s : DState) :
    (generate_conclusion st o s).current_round = none ∧
    (generate_conclusion st o s).max_rounds = none ∧
    (generate_conclusion st o s).rounds = none := by
  cases st <;> exact ⟨rfl, rfl, rfl⟩

lemma evaluate_debate_keys (o : Oracles) (s : DState) :
    (evaluate_debate o s).current_round = none ∧
    (evaluate_debate o s).max_rounds = none ∧
    (evaluate_debate o s).rounds = none :=
  ⟨rfl, rfl, rfl⟩

/-- One superstep preserves the run invariant, changes `current_round` by
exactly 1 exactly when the step runs `check_con_facts` and that stage stores a
fact-check result, and otherwise leaves it unchanged. -/
lemma pipeStep_inv (o : Oracles) (nd : Node) (s : DState) (c' : Node × DState)
    (hinv : PipeInv (nd, s)) (hstep : pipeStep o (nd, s) = some c') :
    PipeInv c' ∧
    (c'.2.current_round = s.current_round + 1 ∨
      c'.2.current_round = s.current_round) ∧
    (c'.2.current_round = s.current_round + 1 ↔
      (nd = Node.check_con_facts ∧ conFactsFires s)) := by
  obtain ⟨hm, hloc⟩ := hinv
  dsimp only at hm
  cases nd with
  | set_debate =>
    obtain ⟨hcr, hrds⟩ := hloc
    dsimp only at hcr hrds
    simp only [pipeStep, Option.some.injEq] at hstep
    subst hstep
    rw [set_debate_apply]
    refine ⟨⟨hm, ?_, ?_, ?_⟩, Or.inr rfl, by simp⟩
    · dsimp only
      omega
    · dsimp only
      simp only [hrds, List.length_nil]
      omega
    · dsimp only
      simp only [hrds, List.length_nil]
      omega
  | generate_pro_argument =>
    obtain ⟨hcr, hl, hu⟩ := hloc
    dsimp only at hcr hl hu
    obtain ⟨rds, hgen, hlen⟩ := generate_argument_shape .pro o s hl hu
    simp only [pipeStep, hgen, Option.map, Option.some.injEq] at hstep
    subst hstep
    have ecr : (applyUpdate s { rounds := some rds }).current_round =
        s.current_round := rfl
    refine ⟨⟨hm, ?_, ?_⟩, Or.inr ecr, by simp [ecr]⟩
    · dsimp only
      rw [ecr]
      exact hcr
    · dsimp only [applyUpdate]
      simp only [Option.getD_some, Option.getD_none]
      omega
  | check_pro_facts =>
    obtain ⟨hcr, hlen⟩ := hloc
    dsimp only at hcr hlen
    obtain ⟨k1, k2, k3⟩ := fact_check_pro_keys o s
    simp only [pipeStep, Option.some.injEq] at hstep
    subst hstep
    have e1 : (applyUpdate s (fact_check_pro o s)).current_round =
        s.current_round := by
      dsimp only [applyUpdate]
      rw [k1]
      rfl
    have e2 : (applyUpdate s (fact_check_pro o s)).max_rounds =
        s.max_rounds := by
      dsimp only [applyUpdate]
      rw [k2]
      rfl
    have e3 : (applyUpdate s (fact_check_pro o s)).rounds.length =
        s.rounds.length := by
      dsimp only [applyUpdate]
      rcases k3 with h | ⟨rds, hr, hrlen⟩
      · rw [h]
        rfl
      · rw [hr]
        exact hrlen
    refine ⟨⟨?_, ?_, ?_⟩, Or.inr e1, by simp [e1]⟩
    · dsimp only
      rw [e2]
      exact hm
    · dsimp only
      rw [e1, e2]
      exact hcr
    · dsimp only
      rw [e1, e3]
      exact hlen
  | generate_con_argument =>
    obtain ⟨hcr, hlen⟩ := hloc
    dsimp only at hcr hlen
    obtain ⟨rds, hgen, hrlen⟩ := generate_argument_shape .con o s
      (by omega) (by omega)
    simp only [pipeStep, hgen, Option.map, Option.some.injEq] at hstep
    subst hstep
    have ecr : (applyUpdate s { rounds := some rds }).current_round =
        s.current_round := rfl
    refine ⟨⟨hm, ?_, ?_⟩, Or.inr ecr, by simp [ecr]⟩
    · dsimp only
      rw [ecr]
      exact hcr
    · dsimp only [applyUpdate]
      simp only [Option.getD_some, Option.getD_none]
      omega
  | check_con_facts =>
    obtain ⟨hcr, hlen⟩ := hloc
    dsimp only at hcr hlen
    by_cases hf : conFactsFires s
    · obtain ⟨rds, hupd, hrlen⟩ := fact_check_con_fires o s hf
      simp only [pipeStep, hupd, Option.some.injEq] at hstep
      subst hstep
      have hcr' : (applyUpdate s
          { rounds := some rds,
            current_round := some (s.current_round + 1) }).current_round =
          s.current_round + 1 := rfl
      have emx : (applyUpdate s
          { rounds := some rds,
            current_round := some (s.current_round + 1) }).max_rounds =
          s.max_rounds := rfl
      have elen : (applyUpdate s
          { rounds := some rds,
            current_round := some (s.current_round + 1) }).rounds = rds := rfl
      refine ⟨?_, Or.inl hcr', by simp [hcr', hf]⟩
      by_cases hguard : check_round_completion (applyUpdate s
          { rounds := some rds, current_round := some (s.current_round + 1) })
      · rw [if_pos hguard]
        unfold check_round_completion at hguard
        simp only [decide_eq_true_eq, hcr', emx] at hguard
        refine ⟨hm, ?_, ?_, ?_⟩ <;> dsimp only <;>
          simp only [hcr', emx, elen, hrlen] <;> omega
      · rw [if_neg hguard]
        unfold check_round_completion at hguard
        simp only [decide_eq_true_eq, hcr', emx] at hguard
        refine ⟨hm, ?_⟩
        dsimp only
        simp only [hcr', emx]
        omega
    · simp only [pipeStep] at hstep
      rw [fact_check_con_no_fire o s hf, apply_emptyUpdate] at hstep
      have hguard : check_round_completion s = true := by
        unfold check_round_completion
        simp only [decide_eq_true_eq]
        exact hcr
      rw [if_pos hguard] at hstep
      rw [Option.some.injEq] at hstep
      subst hstep
      refine ⟨⟨hm, hcr, ?_, ?_⟩, Or.inr rfl, by simp [hf]⟩ <;> dsimp only <;>
        omega
  | pro_conclusion_node =>
    dsimp only at hloc
    obtain ⟨k1, k2, k3⟩ := generate_conclusion_keys .pro o s
    simp only [pipeStep, Option.some.injEq] at hstep
    subst hstep
    have e1 : (applyUpdate s (generate_conclusion .pro o s)).current_round =
        s.current_round := by
      dsimp only [applyUpdate]
      rw [k1]
      rfl
    have e2 : (applyUpdate s (generate_conclusion .pro o s)).max_rounds =
        s.max_rounds := by
      dsimp only [applyUpdate]
      rw [k2]
      rfl
    refine ⟨⟨?_, ?_⟩, Or.inr e1, by simp [e1]⟩
    · dsimp only
      rw [e2]
      exact hm
    · dsimp only
      rw [e1, e2]
      exact hloc
  | con_conclusion_node =>
    dsimp only at hloc
    obtain ⟨k1, k2, k3⟩ := generate_conclusion_keys .con o s
    simp only [pipeStep, Option.some.injEq] at hstep
    subst hstep
    have e1 : (applyUpdate s (generate_conclusion .con o s)).current_round =
        s.current_round := by
      dsimp only [applyUpdate]
      rw [k1]
      rfl
    have e2 : (applyUpdate s (generate_conclusion .con o s)).max_rounds =
        s.max_rounds := by
      dsimp only [applyUpdate]
      rw [k2]
      rfl
    refine ⟨⟨?_, ?_⟩, Or.inr e1, by simp [e1]⟩
    · dsimp only
      rw [e2]
      exact hm
    · dsimp only
      rw [e1, e2]
      exact hloc
  | evaluate_debate =>
    dsimp only at hloc
    obtain ⟨k1, k2, k3⟩ := evaluate_debate_keys o s
    simp only [pipeStep, Option.some.injEq] at hstep
    subst hstep
    have e1 : (applyUpdate s (evaluate_debate o s)).current_round =
        s.current_round := by
      dsimp only [applyUpdate]
      rw [k1]
      rfl
    have e2 : (applyUpdate s (evaluate_debate o s)).max_rounds =
        s.max_rounds := by
      dsimp only [applyUpdate]
      rw [k2]
      rfl
    refine ⟨⟨?_, ?_⟩, Or.inr e1, by simp [e1]⟩
    · dsimp only
      rw [e2]
      exact hm
    · dsimp only
      rw [e1, e2]
      exact hloc
  | finished =>
    dsimp only at hloc
    simp only [pipeStep, Option.some.injEq] at hstep
    subst hstep
    exact ⟨⟨hm, hloc⟩, Or.inr rfl, by simp⟩

lemma traceN_inv (o : Oracles) (t b : String) (m : Nat) (hm : 1 ≤ m) :
    ∀ (n : Nat) (c : Node × DState), traceN o t b m n = some c → PipeInv c := by
  intro n
  induction n with
  | zero =>
    intro c hc
    rw [traceN, Option.some.injEq] at hc
    subst hc
    exact ⟨hm, rfl, rfl⟩
  | succ k ih =>
    intro c hc
    rw [traceN] at hc
    cases h0 : traceN o t b m k with
    | none =>
      rw [h0] at hc
      exact absurd hc (by simp)
    | some c0 =>
      rw [h0] at hc
      exact (pipeStep_inv o c0.1 c0.2 c (ih c0 h0) (by rw [← hc])).1

lemma pipeInv_le (c : Node × DState) (h : PipeInv c) :
    c.2.current_round ≤ c.2.max_rounds := by
  obtain ⟨hm, hloc⟩ := h
  obtain ⟨nd, s⟩ := c
  cases nd <;> dsimp only at hloc hm ⊢ <;> omega

/-- One superstep preserves the unconditional round-bookkeeping invariant and
changes `current_round` by exactly 1 exactly when the step runs
`check_con_facts` and that stage stores a fact-check result — with no
assumption on `max_rounds`. -/
lemma pipeStepW_inv (o : Oracles) (nd : Node) (s : DState) (c' : Node × DState)
    (hinv : PipeInvW (nd, s)) (hstep : pipeStep o (nd, s) = some c') :
    PipeInvW c' ∧
    (c'.2.current_round = s.current_round + 1 ∨
      c'.2.current_round = s.current_round) ∧
    (c'.2.current_round = s.current_round + 1 ↔
      (nd = Node.check_con_facts ∧ conFactsFires s)) := by
  cases nd with
  | set_debate =>
    obtain ⟨hcr, hrds⟩ := hinv
    dsimp only at hcr hrds
    simp only [pipeStep, Option.some.injEq] at hstep
    subst hstep
    rw [set_debate_apply]
    refine ⟨⟨?_, ?_⟩, Or.inr rfl, by simp⟩
    · dsimp only
      simp only [hrds, List.length_nil]
      omega
    · dsimp only
      simp only [hrds, List.length_nil]
      omega
  | generate_pro_argument =>
    obtain ⟨hl, hu⟩ := hinv
    dsimp only at hl hu
    obtain ⟨rds, hgen, hlen⟩ := generate_argument_shape .pro o s hl hu
    simp only [pipeStep, hgen, Option.map, Option.some.injEq] at hstep
    subst hstep
    have ecr : (applyUpdate s { rounds := some rds }).current_round =
        s.current_round := rfl
    refine ⟨?_, Or.inr ecr, by simp [ecr]⟩
    show (applyUpdate s { rounds := some rds }).rounds.length =
      (applyUpdate s { rounds := some rds }).current_round + 1
    dsimp only [applyUpdate]
    simp only [Option.getD_some, Option.getD_none]
    omega
  | check_pro_facts =>
    have hlen : s.rounds.length = s.current_round + 1 := hinv
    obtain ⟨k1, k2, k3⟩ := fact_check_pro_keys o s
    simp only [pipeStep, Option.some.injEq] at hstep
    subst hstep
    have e1 : (applyUpdate s (fact_check_pro o s)).current_round =
        s.current_round := by
      dsimp only [applyUpdate]
      rw [k1]
      rfl
    have e3 : (applyUpdate s (fact_check_pro o s)).rounds.length =
        s.rounds.length := by
      dsimp only [applyUpdate]
      rcases k3 with h | ⟨rds, hr, hrlen⟩
      · rw [h]
        rfl
      · rw [hr]
        exact hrlen
    refine ⟨?_, Or.inr e1, by simp [e1]⟩
    show (applyUpdate s (fact_check_pro o s)).rounds.length =
      (applyUpdate s (fact_check_pro o s)).current_round + 1
    rw [e1, e3]
    exact hlen
  | generate_con_argument =>
    have hlen : s.rounds.length = s.current_round + 1 := hinv
    obtain ⟨rds, hgen, hrlen⟩ := generate_argument_shape .con o s
      (by omega) (by omega)
    simp only [pipeStep, hgen, Option.map, Option.some.injEq] at hstep
    subst hstep
    have ecr : (applyUpdate s { rounds := some rds }).current_round =
        s.current_round := rfl
    refine ⟨?_, Or.inr ecr, by simp [ecr]⟩
    show (applyUpdate s { rounds := some rds }).rounds.length =
      (applyUpdate s { rounds := some rds }).current_round + 1
    dsimp only [applyUpdate]
    simp only [Option.getD_some, Option.getD_none]
    omega
  | check_con_facts =>
    have hlen : s.rounds.length = s.current_round + 1 := hinv
    by_cases hf : conFactsFires s
    · obtain ⟨rds, hupd, hrlen⟩ := fact_check_con_fires o s hf
      simp only [pipeStep, hupd, Option.some.injEq] at hstep
      subst hstep
      have hcr' : (applyUpdate s
          { rounds := some rds,
            current_round := some (s.current_round + 1) }).current_round =
          s.current_round + 1 := rfl
      have elen : (applyUpdate s
          { rounds := some rds,
            current_round := some (s.current_round + 1) }).rounds = rds := rfl
      refine ⟨?_, Or.inl hcr', by simp [hcr', hf]⟩
      by_cases hguard : check_round_completion (applyUpdate s
          { rounds := some rds, current_round := some (s.current_round + 1) })
      · rw [if_pos hguard]
        refine ⟨?_, ?_⟩ <;> dsimp only <;>
          simp only [hcr', elen, hrlen] <;> omega
      · rw [if_neg hguard]
        exact trivial
    · simp only [pipeStep] at hstep
      rw [fact_check_con_no_fire o s hf, apply_emptyUpdate] at hstep
      by_cases hg : check_round_completion s = true
      · rw [if_pos hg] at hstep
        rw [Option.some.injEq] at hstep
        subst hstep
        refine ⟨⟨?_, ?_⟩, Or.inr rfl, by simp [hf]⟩ <;> dsimp only <;> omega
      · rw [if_neg hg] at hstep
        rw [Option.some.injEq] at hstep
        subst hstep
        exact ⟨trivial, Or.inr rfl, by simp [hf]⟩
  | pro_conclusion_node =>
    obtain ⟨k1, k2, k3⟩ := generate_conclusion_keys .pro o s
    simp only [pipeStep, Option.some.injEq] at hstep
    subst hstep
    have e1 : (applyUpdate s (generate_conclusion .pro o s)).current_round =
        s.current_round := by
      dsimp only [applyUpdate]
      rw [k1]
      rfl
    exact ⟨trivial, Or.inr e1, by simp [e1]⟩
  | con_conclusion_node =>
    obtain ⟨k1, k2, k3⟩ := generate_conclusion_keys .con o s
    simp only [pipeStep, Option.some.injEq] at hstep
    subst hstep
    have e1 : (applyUpdate s (generate_conclusion .con o s)).current_round =
        s.current_round := by
      dsimp only [applyUpdate]
      rw [k1]
      rfl
    exact ⟨trivial, Or.inr e1, by simp [e1]⟩
  | evaluate_debate =>
    obtain ⟨k1, k2, k3⟩ := evaluate_debate_keys o s
    simp only [pipeStep, Option.some.injEq] at hstep
    subst hstep
    have e1 : (applyUpdate s (evaluate_debate o s)).current_round =
        s.current_round := by
      dsimp only [applyUpdate]
      rw [k1]
      rfl
    exact ⟨trivial, Or.inr e1, by simp [e1]⟩
  | finished =>
    simp only [pipeStep, Option.some.injEq] at hstep
    subst hstep
    exact ⟨trivial, Or.inr rfl, by simp⟩

lemma traceN_invW (o : Oracles) (t b : String) (m : Nat) :
    ∀ (n : Nat) (c : Node × DState), traceN o t b m n = some c →
      PipeInvW c := by
  intro n
  induction n with
  | zero =>
    intro c hc
    rw [traceN, Option.some.injEq] at hc
    subst hc
    exact ⟨rfl, rfl⟩
  | succ k ih =>
    intro c hc
    rw [traceN] at hc
    cases h0 : traceN o t b m k with
    | none =>
      rw [h0] at hc
      exact absurd hc (by simp)
    | some c0 =>
      rw [h0] at hc
      exact (pipeStepW_inv o c0.1 c0.2 c (ih c0 h0) (by rw [← hc])).1

/-- C4 counterexample: the claim says `current_round` never exceeds
`max_rounds` on every run.  A run configured with `max_rounds = 0` still
executes its first full round (the graph reaches the loop guard only after
`check_con_facts`), so after five supersteps `current_round = 1 > 0 =
max_rounds`. -/
theorem c4_round_bound_counterexample :
    (traceN constOracles "t" "b" 0 5).map
        (fun c => (c.2.current_round, c.2.max_rounds)) = some (1, 0) ∧
      (0 : Nat) < 1 :=
  ⟨by decide, by decide⟩

/-- C4 (amended): on every run — for every configured `max_rounds`, including
0 — each superstep changes `current_round` by exactly 1 exactly when the step
runs `CHECK_CON_FACTS` and that stage stores its `con_fact_check` result for
the current round (`conFactsFires`), and no other stage changes it; and,
provided `max_rounds ≥ 1`, `current_round` never exceeds `max_rounds` along
the trace. -/
theorem c4_current_round_amended (o : Oracles) (t b : String) (m : Nat)
    (n : Nat) (c c' : Node × DState)
    (hc : traceN o t b m n = some c)
    (hc' : traceN o t b m (n + 1) = some c') :
    (c'.2.current_round = c.2.current_round + 1 ∨
      c'.2.current_round = c.2.current_round) ∧
    (c'.2.current_round = c.2.current_round + 1 ↔
      (c.1 = Node.check_con_facts ∧ conFactsFires c.2)) ∧
    (1 ≤ m → c'.2.current_round ≤ c'.2.max_rounds) := by
  rw [traceN, hc] at hc'
  have hw := traceN_invW o t b m n c hc
  obtain ⟨-, hd, hiff⟩ := pipeStepW_inv o c.1 c.2 c' hw (by rw [← hc'])
  refine ⟨hd, hiff, ?_⟩
  intro hm
  have hinv := traceN_inv o t b m hm n c hc
  exact pipeInv_le c' (pipeStep_inv o c.1 c.2 c' hinv (by rw [← hc'])).1

/-- Witness for C4: the first superstep of a one-round run satisfies the
amended property, including the bound clause under its proviso. -/
theorem c4_current_round_amended_witness :
    ((c4wState.current_round = (initState "t" "b" 1).current_round + 1 ∨
        c4wState.current_round = (initState "t" "b" 1).current_round) ∧
      (c4wState.current_round = (initState "t" "b" 1).current_round + 1 ↔
        (Node.set_debate = Node.check_con_facts ∧
          conFactsFires (initState "t" "b" 1))) ∧
      c4wState.current_round ≤ c4wState.max_rounds) :=
  ⟨(c4_current_round_amended constOracles "t" "b" 1 0
      (Node.set_debate, initState "t" "b" 1)
      (Node.generate_pro_argument, c4wState) (by decide) (by decide)).1,
    (c4_current_round_amended constOracles "t" "b" 1 0
      (Node.set_debate, initState "t" "b" 1)
      (Node.generate_pro_argument, c4wState) (by decide) (by decide)).2.1,
    (c4_current_round_amended constOracles "t" "b" 1 0
      (Node.set_debate, initState "t" "b" 1)
      (Node.generate_pro_argument, c4wState) (by decide) (by decide)).2.2
      (by decide)⟩

end DebateClub
